import Mathlib

/-!
Verification of the natural-language specification of an Android framework
source set against a shallow embedding of its C++ code in Lean 4.

Each section embeds the functions one claim depends on, translated directly
from the corresponding source file, and proves (or refutes) the claim.
-/

set_option linter.unusedVariables false

/-! ## Wi-Fi supplicant lifecycle manager
    (frameworks/opt/net/wifi/libwifi_system/supplicant_manager.cpp)

The file-system and property interactions are modelled by an explicit
environment record; each field corresponds to the outcome of one system
call made by the code. -/

/-- Outcome of the initial access(config_file, R_OK | W_OK) call:
    success, failure with errno EACCES, failure with errno ENOENT, or
    failure with any other errno. -/
inductive AccessRes where
  | ok
  | eaccesErr
  | enoentErr
  | otherErr
deriving DecidableEq, Repr

/-- Environment for one run of ensure_config_file_exists: outcomes of the
    system calls it can make, in program order. -/
structure ConfigEnv where
  accessRes : AccessRes
  chmodOk : Bool        -- chmod(config_file, kConfigFileMode) on the EACCES path
  srcOpenOk : Bool      -- open(kSupplicantConfigTemplatePath, O_RDONLY)
  destOpenOk : Bool     -- open(config_file, O_CREAT | O_RDWR, kConfigFileMode)
  readErr : Bool        -- some read() of the 2048-byte copy loop fails
  chmodAfterOk : Bool   -- final chmod after the copy
deriving DecidableEq, Repr

/-- ensure_config_file_exists (supplicant_manager.cpp lines 52-113).
    Declared `int` in the source but every return statement returns the
    C++ literal `false` or `true`, so the function's value is always 0 or 1. -/
def ensure_config_file_exists (e : ConfigEnv) : Bool :=
  match e.accessRes with
  | AccessRes.ok => true
  | AccessRes.eaccesErr => if e.chmodOk then true else false
  | AccessRes.otherErr => false
  | AccessRes.enoentErr =>
    if !e.srcOpenOk then false
    else if !e.destOpenOk then false
    else if e.readErr then false
    else if !e.chmodAfterOk then false
    else true

/-- C++ implicit bool-to-int conversion applied to the value returned by
    ensure_config_file_exists at its call site in StartSupplicant. -/
def boolToCInt (b : Bool) : Int := if b then 1 else 0

/-- Environment for one run of SupplicantManager::StartSupplicant. -/
structure SupplicantEnv where
  statusIsRunning : Bool        -- init.svc.wpa_supplicant reads "running" up front
  cfg : ConfigEnv               -- environment for the primary config file
  p2p : ConfigEnv               -- environment for the optional p2p config file
  entropyOk : Bool              -- ensure_entropy_file_exists outcome
  pollOutcome : Option Bool     -- polling loop: some true = property became
                                -- "running", some false = "stopped",
                                -- none = 200-iteration budget exhausted
deriving DecidableEq, Repr

/-- Result of StartSupplicant together with whether the platform service
    start (property_set of ctl.start) was requested. -/
structure StartResult where
  result : Bool
  startRequested : Bool
deriving DecidableEq, Repr

/-- SupplicantManager::StartSupplicant (supplicant_manager.cpp lines 117-187).
    Note the source guards the config-file step with
    `ensure_config_file_exists(kSupplicantConfigFile) < 0`
    although that function only ever returns 0 or 1. -/
def StartSupplicant (e : SupplicantEnv) : StartResult :=
  if e.statusIsRunning then { result := true, startRequested := false }
  else if boolToCInt (ensure_config_file_exists e.cfg) < 0 then
    { result := false, startRequested := false }
  else
    -- ensure_config_file_exists(kP2pConfigFile) and
    -- ensure_entropy_file_exists() are best-effort: their results are
    -- discarded (at most a log line), and wpa_ctrl_cleanup has no result.
    let pollResult := match e.pollOutcome with
      | some b => b
      | none => false
    { result := pollResult, startRequested := true }

/-- Concrete failing environment: supplicant not running, working config
    file absent (ENOENT) and the template unopenable, so
    ensure_config_file_exists fails; init later reports "running". -/
def c1FailEnv : SupplicantEnv :=
  { statusIsRunning := false
  , cfg := { accessRes := AccessRes.enoentErr, chmodOk := true, srcOpenOk := false
           , destOpenOk := true, readErr := false, chmodAfterOk := true }
  , p2p := { accessRes := AccessRes.ok, chmodOk := true, srcOpenOk := true
           , destOpenOk := true, readErr := false, chmodAfterOk := true }
  , entropyOk := true
  , pollOutcome := some true }

/-- C1: in the failing environment, ensuring the primary configuration file
    exists fails (returns false, i.e. 0), yet StartSupplicant still requests
    the service start and even returns success, because the guard compares
    the 0/1 result against `< 0`, which never holds.  This contradicts the
    code's own error-handling intent (the "Wi-Fi will not be enabled" branch
    is unreachable) and the spec, which says failure aborts with an error. -/
theorem c1_start_supplicant_config_failure_not_aborted :
    ensure_config_file_exists c1FailEnv.cfg = false ∧
    StartSupplicant c1FailEnv = { result := true, startRequested := true } := by
  constructor <;> rfl

/-! ## Decoding pull-source adapter
    (frameworks/av/media/libstagefright/SimpleDecodingSource.cpp) -/

/-- Lifecycle states of SimpleDecodingSource's protected state. -/
inductive SDSState where
  | INIT
  | STARTED
  | STOPPING
  | STOPPED
  | ERROR
deriving DecidableEq, Repr

/-- SimpleDecodingSource::ProtectedState.  The format is abstracted to a
    numeric identity; status codes are C ints with OK = 0. -/
structure SDSProtectedState where
  mReading : Bool
  mFormat : Nat
  mState : SDSState
  mQueuedInputEOS : Bool
  mGotOutputEOS : Bool
deriving DecidableEq, Repr

/-- ProtectedState::ProtectedState(format) (SimpleDecodingSource.cpp
    lines 162-168). -/
def ProtectedState_init (format : Nat) : SDSProtectedState :=
  { mReading := false
  , mFormat := format
  , mState := SDSState.INIT
  , mQueuedInputEOS := false
  , mGotOutputEOS := false }

/-- The status code -EINVAL returned on an invalid-state start/stop
    (EINVAL = 22 on Linux). -/
def negEINVAL : Int := -22

/-- SimpleDecodingSource::start (SimpleDecodingSource.cpp lines 105-125).
    codecStart and sourceStart are the status codes mCodec->start() and
    mSource->start() would return; the source is only started when the
    codec started cleanly. -/
def SimpleDecodingSource_start (me : SDSProtectedState)
    (codecStart sourceStart : Int) : Int × SDSProtectedState :=
  if me.mState ≠ SDSState.INIT then (negEINVAL, me)
  else
    let res := if codecStart = 0 then sourceStart else codecStart
    if res = 0 then
      (res, { me with mState := SDSState.STARTED
                    , mQueuedInputEOS := false
                    , mGotOutputEOS := false })
    else
      (res, { me with mState := SDSState.ERROR })

/-- C3: starting a freshly constructed adapter whose codec and source both
    start successfully returns OK, moves the state to STARTED and clears
    both end-of-stream flags; starting from any state other than INIT
    returns -EINVAL and leaves the whole protected state unchanged. -/
theorem c3_decoding_adapter_start_lifecycle :
    (∀ fmt : Nat, SimpleDecodingSource_start (ProtectedState_init fmt) 0 0 =
      (0, { mReading := false, mFormat := fmt, mState := SDSState.STARTED
          , mQueuedInputEOS := false, mGotOutputEOS := false })) ∧
    (∀ (me : SDSProtectedState) (c s : Int), me.mState ≠ SDSState.INIT →
      SimpleDecodingSource_start me c s = (negEINVAL, me)) := by
  constructor
  · intro fmt
    rfl
  · intro me c s h
    simp [SimpleDecodingSource_start, h]

/-- Witness for C3: the second start (from STARTED) is rejected with
    -EINVAL and changes nothing. -/
theorem c3_decoding_adapter_start_lifecycle_witness :
    SimpleDecodingSource_start
      { mReading := false, mFormat := 7, mState := SDSState.STARTED
      , mQueuedInputEOS := false, mGotOutputEOS := false } 0 0 =
      (negEINVAL,
       { mReading := false, mFormat := 7, mState := SDSState.STARTED
       , mQueuedInputEOS := false, mGotOutputEOS := false }) :=
  c3_decoding_adapter_start_lifecycle.2 _ 0 0 (by decide)

/-! ## Wi-Fi-Aware (NAN) native bridge: publish
    (frameworks/opt/net/wifi/service/jni/com_android_server_wifi_aware_WifiAwareNative.cpp)

The HAL request structure and the managed configuration object are modelled
by records; the maximum lengths are platform constants from the NAN HAL
header (not part of this source set), so they are parameters here. -/

/-- Fields of the managed PublishConfig object read by the bridge. -/
structure PublishConfig where
  mPublishType : Nat
  mServiceName : List Nat
  mServiceSpecificInfo : List Nat
  mMatchFilter : List Nat
  mPublishCount : Int
  mTtlSec : Int
  mEnableTerminateNotification : Bool
deriving DecidableEq, Repr

/-- NanPublishRequest fields populated by android_net_wifi_nan_publish.
    Byte buffers hold at most the corresponding maximum (the JNI helper
    copies at most the buffer capacity). -/
structure NanPublishRequest where
  period : Nat
  publish_match_indicator : Nat
  rssi_threshold_flag : Nat
  connmap : Nat
  publish_id : Int
  publish_type : Nat
  service_name : List Nat
  service_name_len : Nat
  service_specific_info : List Nat
  service_specific_info_len : Nat
  tx_match_filter : List Nat
  tx_match_filter_len : Nat
  rx_match_filter : List Nat
  rx_match_filter_len : Nat
  publish_count : Int
  ttl : Int
  tx_type : Nat
  recv_indication_cfg : Nat
deriving DecidableEq, Repr

/-- Constants from the NAN HAL header used by the publish path. -/
def NAN_PUBLISH_TYPE_UNSOLICITED : Nat := 0
def NAN_MATCH_ALG_MATCH_ONCE : Nat := 0
def NAN_TX_TYPE_BROADCAST : Nat := 0
def NAN_TX_TYPE_UNICAST : Nat := 1

/-- A NanPublishRequest with every field zero, the result of the
    memset(&msg, 0, sizeof(NanPublishRequest)). -/
def zeroPublishRequest : NanPublishRequest :=
  { period := 0, publish_match_indicator := 0, rssi_threshold_flag := 0
  , connmap := 0, publish_id := 0, publish_type := 0
  , service_name := [], service_name_len := 0
  , service_specific_info := [], service_specific_info_len := 0
  , tx_match_filter := [], tx_match_filter_len := 0
  , rx_match_filter := [], rx_match_filter_len := 0
  , publish_count := 0, ttl := 0, tx_type := 0, recv_indication_cfg := 0 }

/-- Outcome of the JNI bridge call: either an early return with a JNI-level
    status (no HAL function invoked), or an invocation of
    hal_fn.wifi_nan_publish_request with the fully built request. -/
inductive JniPublishOutcome where
  | earlyReturn (v : Int)
  | halPublish (msg : NanPublishRequest)
deriving DecidableEq, Repr

/-- android_net_wifi_nan_publish (WifiAwareNative.cpp lines 379-454).
    maxServiceName, maxSSI and maxMatchFilter stand for
    NAN_MAX_SERVICE_NAME_LEN, NAN_MAX_SERVICE_SPECIFIC_INFO_LEN and
    NAN_MAX_MATCH_FILTER_LEN. -/
def android_net_wifi_nan_publish (maxServiceName maxSSI maxMatchFilter : Nat)
    (publish_id : Int) (cfg : PublishConfig) : JniPublishOutcome :=
  let msg0 := { zeroPublishRequest with
    period := 500
  , publish_match_indicator := NAN_MATCH_ALG_MATCH_ONCE
  , rssi_threshold_flag := 0
  , connmap := 0
  , publish_id := publish_id
  , publish_type := cfg.mPublishType }
  let msg1 := { msg0 with
    service_name := cfg.mServiceName.take maxServiceName
  , service_name_len := cfg.mServiceName.length }
  if cfg.mServiceName.length > maxServiceName then JniPublishOutcome.earlyReturn 0
  else
    let msg2 := { msg1 with
      service_specific_info := cfg.mServiceSpecificInfo.take maxSSI
    , service_specific_info_len := cfg.mServiceSpecificInfo.length }
    if cfg.mServiceSpecificInfo.length > maxSSI then JniPublishOutcome.earlyReturn 0
    else
      let matched :=
        if cfg.mPublishType = NAN_PUBLISH_TYPE_UNSOLICITED then
          { msg2 with
            tx_match_filter := cfg.mMatchFilter.take maxMatchFilter
          , tx_match_filter_len := cfg.mMatchFilter.length }
        else
          { msg2 with
            rx_match_filter := cfg.mMatchFilter.take maxMatchFilter
          , rx_match_filter_len := cfg.mMatchFilter.length }
      if cfg.mMatchFilter.length > maxMatchFilter then JniPublishOutcome.earlyReturn 0
      else
        let final := { matched with
          publish_count := cfg.mPublishCount
        , ttl := cfg.mTtlSec
        , tx_type :=
            if cfg.mPublishType ≠ NAN_PUBLISH_TYPE_UNSOLICITED then
              NAN_TX_TYPE_UNICAST
            else NAN_TX_TYPE_BROADCAST
        , recv_indication_cfg :=
            if !cfg.mEnableTerminateNotification then 1 else 0 }
        JniPublishOutcome.halPublish final

/-- C8: a publish request whose service-name byte array is longer than the
    maximum service-name length makes the bridge return 0 without invoking
    the underlying hardware publish entry point. -/
theorem c8_publish_oversize_service_name_rejected
    (maxServiceName maxSSI maxMatchFilter : Nat) (pid : Int)
    (cfg : PublishConfig) (h : cfg.mServiceName.length > maxServiceName) :
    android_net_wifi_nan_publish maxServiceName maxSSI maxMatchFilter pid cfg =
      JniPublishOutcome.earlyReturn 0 := by
  simp [android_net_wifi_nan_publish, h]

/-- Witness for C8: a 3-byte service name against a maximum of 2. -/
theorem c8_publish_oversize_service_name_rejected_witness :
    android_net_wifi_nan_publish 2 16 16 1
      { mPublishType := 0, mServiceName := [10, 20, 30]
      , mServiceSpecificInfo := [], mMatchFilter := []
      , mPublishCount := 0, mTtlSec := 0
      , mEnableTerminateNotification := true } =
      JniPublishOutcome.earlyReturn 0 :=
  c8_publish_oversize_service_name_rejected 2 16 16 1 _ (by decide)

/-! ## Matroska elementary-stream-descriptor synthesis
    (frameworks/av/media/libstagefright/matroska/MatroskaExtractor.cpp,
    bytesForSize / storeSize / addESDSFromCodecPrivate)

CHECK(size <= 0xfffffff) is a fatal assertion; a run that trips it is
modelled as `none`. -/

/-- bytesForSize (MatroskaExtractor.cpp lines 893-905). -/
def bytesForSize (size : Nat) : Option Nat :=
  if size > 0xfffffff then none
  else if size > 0x1fffff then some 4
  else if size > 0x3fff then some 3
  else if size > 0x7f then some 2
  else some 1

/-- The byte sequence written by storeSize's backward loop
    (MatroskaExtractor.cpp lines 907-918): numBytes 7-bit groups, all but
    the last carrying the 0x80 continuation bit (`next`). -/
def storeSizeBytes : Nat → Nat → Nat → List Nat
  | 0, _, _ => []
  | k + 1, size, next => storeSizeBytes k (size / 128) 0x80 ++ [size % 128 ||| next]

/-- storeSize advances the write index by exactly numBytes. -/
theorem storeSizeBytes_length (k : Nat) : ∀ size next,
    (storeSizeBytes k size next).length = k := by
  induction k with
  | zero => intro size next; rfl
  | succ k ih =>
    intro size next
    simp [storeSizeBytes, ih]

/-- addESDSFromCodecPrivate (MatroskaExtractor.cpp lines 920-953), as the
    byte sequence written into the allocated esds buffer.  All writes are
    strictly sequential (idx only ever increases), so the buffer content is
    the concatenation of the individual writes. -/
def addESDSFromCodecPrivate (isAudio : Bool) (priv : List Nat) :
    Option (List Nat) := do
  let privSizeBytesRequired ← bytesForSize priv.length
  let esdsSize2 := 14 + privSizeBytesRequired + priv.length
  let esdsSize2BytesRequired ← bytesForSize esdsSize2
  let esdsSize1 := 4 + esdsSize2BytesRequired + esdsSize2
  let esdsSize1BytesRequired ← bytesForSize esdsSize1
  some ([0x03] ++ storeSizeBytes esdsSize1BytesRequired esdsSize1 0 ++
        [0x00, 0x00, 0x00] ++
        [0x04] ++ storeSizeBytes esdsSize2BytesRequired esdsSize2 0 ++
        [if isAudio then 0x40 else 0x20] ++ List.replicate 12 0 ++
        [0x05] ++ storeSizeBytes privSizeBytesRequired priv.length 0 ++ priv)

/-- The allocated buffer size `esdsSize` computed at the top of
    addESDSFromCodecPrivate (lines 924-929). -/
def esdsAllocSize (privSize : Nat) : Option Nat := do
  let privSizeBytesRequired ← bytesForSize privSize
  let esdsSize2 := 14 + privSizeBytesRequired + privSize
  let esdsSize2BytesRequired ← bytesForSize esdsSize2
  let esdsSize1 := 4 + esdsSize2BytesRequired + esdsSize2
  let esdsSize1BytesRequired ← bytesForSize esdsSize1
  some (1 + esdsSize1BytesRequired + esdsSize1)

theorem bytesForSize_bounds {n k : Nat} (h : bytesForSize n = some k) :
    1 ≤ k ∧ k ≤ 4 := by
  unfold bytesForSize at h
  split at h
  · exact Option.noConfusion h
  · split at h
    · simp only [Option.some.injEq] at h; omega
    · split at h
      · simp only [Option.some.injEq] at h; omega
      · split at h
        · simp only [Option.some.injEq] at h; omega
        · simp only [Option.some.injEq] at h; omega

theorem bytesForSize_some {n : Nat} (h : n ≤ 0xfffffff) :
    ∃ k, bytesForSize n = some k := by
  unfold bytesForSize
  split
  · omega
  · split
    · exact ⟨4, rfl⟩
    · split
      · exact ⟨3, rfl⟩
      · split
        · exact ⟨2, rfl⟩
        · exact ⟨1, rfl⟩

theorem esds_aborts_of_length_max (priv : List Nat)
    (h : priv.length = 0xfffffff) :
    addESDSFromCodecPrivate true priv = none := by
  unfold addESDSFromCodecPrivate
  rw [h]
  rw [show bytesForSize 0xfffffff = some 4 by norm_num [bytesForSize]]
  rw [Option.bind_eq_bind, Option.some_bind]
  dsimp only
  rw [show bytesForSize (14 + 4 + 0xfffffff) = none by norm_num [bytesForSize]]
  rfl

/-- C10 counterexample: at a codec-private payload of size exactly
    0xFFFFFFF (within the claim's stated bound) the synthesis does not
    complete at all: the CHECK inside bytesForSize aborts on the nested
    decoder-config descriptor size 0xFFFFFFF + 18, so there is no run in
    which the writes fill the allocated buffer. -/
theorem c10_esds_within_bounds_counterexample :
    (List.replicate 0xfffffff (0 : Nat)).length ≤ 0xfffffff ∧
    addESDSFromCodecPrivate true (List.replicate 0xfffffff 0) = none :=
  ⟨by rw [List.length_replicate],
   esds_aborts_of_length_max _ (by rw [List.length_replicate])⟩

/-- C10 (amended): for every codec-private payload of size at most
    0xFFFFFFF - 26 (so that the nested descriptor sizes also stay within
    the 28-bit cap enforced by bytesForSize), the synthesis completes,
    storeSize writes exactly bytesForSize(size) bytes for every size it
    encodes, and the writes fill the allocated buffer exactly: the total
    written length equals the allocated esdsSize (no write past the end
    and no unwritten tail). -/
theorem c10_esds_within_bounds (isAudio : Bool) (priv : List Nat)
    (h : priv.length ≤ 0xfffffff - 26) :
    (∀ n k, bytesForSize n = some k → (storeSizeBytes k n 0).length = k) ∧
    ∃ out sz, addESDSFromCodecPrivate isAudio priv = some out ∧
      esdsAllocSize priv.length = some sz ∧ out.length = sz := by
  refine ⟨fun n k _ => storeSizeBytes_length k n 0, ?_⟩
  obtain ⟨bp, hbp⟩ := bytesForSize_some (n := priv.length) (by omega)
  have hbp4 := bytesForSize_bounds hbp
  obtain ⟨b2, hb2⟩ := bytesForSize_some (n := 14 + bp + priv.length) (by omega)
  have hb24 := bytesForSize_bounds hb2
  obtain ⟨b1, hb1⟩ :=
    bytesForSize_some (n := 4 + b2 + (14 + bp + priv.length)) (by omega)
  refine ⟨[0x03] ++ storeSizeBytes b1 (4 + b2 + (14 + bp + priv.length)) 0 ++
          [0x00, 0x00, 0x00] ++
          [0x04] ++ storeSizeBytes b2 (14 + bp + priv.length) 0 ++
          [if isAudio then 0x40 else 0x20] ++ List.replicate 12 0 ++
          [0x05] ++ storeSizeBytes bp priv.length 0 ++ priv,
        1 + b1 + (4 + b2 + (14 + bp + priv.length)), ?_, ?_, ?_⟩
  · unfold addESDSFromCodecPrivate
    rw [hbp, Option.bind_eq_bind, Option.some_bind]
    dsimp only
    rw [hb2, Option.some_bind]
    rw [hb1, Option.some_bind]
  · unfold esdsAllocSize
    rw [hbp, Option.bind_eq_bind, Option.some_bind]
    dsimp only
    rw [hb2, Option.some_bind]
    rw [hb1, Option.some_bind]
  · simp [storeSizeBytes_length]
    omega

/-- Witness for C10: a 3-byte payload. -/
theorem c10_esds_within_bounds_witness :
    (∀ n k, bytesForSize n = some k → (storeSizeBytes k n 0).length = k) ∧
    ∃ out sz, addESDSFromCodecPrivate true [1, 2, 3] = some out ∧
      esdsAllocSize 3 = some sz ∧ out.length = sz := by
  have := c10_esds_within_bounds true [1, 2, 3] (by norm_num)
  simpa using this

/-! ## Matroska Vorbis codec-private split
    (MatroskaExtractor.cpp, addVorbisCodecInfo, lines 955-1031) -/

/-- SIZE_MAX for the 64-bit size_t arithmetic of the overflow guards. -/
def sizeMax : Nat := 2 ^ 64 - 1

theorem sizeMax_eq : sizeMax = 18446744073709551615 := by
  unfold sizeMax
  norm_num

/-- One Xiph-lacing length decode (addVorbisCodecInfo lines 975-988 and
    990-1004): accumulate 0xFF for every 0xFF byte, then add the first
    non-0xFF byte; running off the end or overflowing SIZE_MAX is
    malformed.  Returns the decoded length, the remaining bytes and the
    updated offset. -/
def parseXiphLaceLoop : List Nat → Nat → Nat → Except Unit (Nat × List Nat × Nat)
  | [], _, _ => Except.error ()
  | b :: rest, off, acc =>
    if b = 0xff then
      if acc > sizeMax - 0xff then Except.error ()
      else parseXiphLaceLoop rest (off + 1) (acc + 0xff)
    else
      if acc > sizeMax - b then Except.error ()
      else Except.ok (acc + b, rest, off + 1)

/-- The two configuration blobs stored by addVorbisCodecInfo:
    kKeyVorbisInfo (identification header) and kKeyVorbisBooks (setup
    header). -/
structure VorbisBlobs where
  info : List Nat
  books : List Nat
deriving DecidableEq, Repr

/-- addVorbisCodecInfo (MatroskaExtractor.cpp lines 955-1031).  Byte reads
    at an index are List.getD with default 0 (the source reads these
    indexes only after its size checks). -/
def addVorbisCodecInfo (cp : List Nat) : Except Unit VorbisBlobs :=
  match cp with
  | [] => Except.error ()
  | b0 :: rest =>
    if b0 ≠ 2 then Except.error ()
    else
      match parseXiphLaceLoop rest 1 0 with
      | Except.error _ => Except.error ()
      | Except.ok (len1, rem1, off1) =>
        match parseXiphLaceLoop rem1 off1 0 with
        | Except.error _ => Except.error ()
        | Except.ok (len2, rem2, off2) =>
          if len1 > sizeMax - len2 then Except.error ()
          else if off2 > sizeMax - (len1 + len2) then Except.error ()
          else if cp.length < off2 + len1 + len2 then Except.error ()
          else if rem2.getD 0 0 ≠ 1 then Except.error ()
          else
            let info := rem2.take len1
            if rem2.getD len1 0 ≠ 3 then Except.error ()
            else if rem2.getD (len1 + len2) 0 ≠ 5 then Except.error ()
            else Except.ok { info := info, books := rem2.drop (len1 + len2) }

/-- The Xiph-lacing encoding of a length n: n / 255 bytes of 0xFF followed
    by the byte n mod 255. -/
def xiphLace (n : Nat) : List Nat := List.replicate (n / 255) 0xff ++ [n % 255]

theorem parseXiphLace_replicate (rest : List Nat) (k r : Nat) :
    ∀ off acc, r < 255 → acc + 255 * k + r ≤ sizeMax →
    parseXiphLaceLoop (List.replicate k 0xff ++ r :: rest) off acc =
      Except.ok (acc + 255 * k + r, rest, off + k + 1) := by
  induction k with
  | zero =>
    intro off acc hr hb
    have hr' : r ≠ 0xff := by omega
    have hb' : ¬ acc > sizeMax - r := by omega
    simp [parseXiphLaceLoop, hr', hb']
  | succ k ih =>
    intro off acc hr hb
    rw [List.replicate_succ]
    have h255 : ¬ acc > sizeMax - 0xff := by omega
    simp only [List.cons_append, parseXiphLaceLoop, if_pos, h255]
    rw [if_neg not_false, List.append_eq]
    rw [ih (off + 1) (acc + 0xff) hr (by omega)]
    simp only [Except.ok.injEq, Prod.mk.injEq]
    exact ⟨by omega, trivial, by omega⟩

theorem parseXiphLace_lace (n : Nat) (rest : List Nat) (off : Nat)
    (h : n ≤ sizeMax) :
    parseXiphLaceLoop (xiphLace n ++ rest) off 0 =
      Except.ok (n, rest, off + n / 255 + 1) := by
  have hmod : n % 255 < 255 := Nat.mod_lt _ (by omega)
  have hdm : 255 * (n / 255) + n % 255 = n := Nat.div_add_mod n 255
  rw [xiphLace, List.append_assoc, List.singleton_append]
  rw [parseXiphLace_replicate rest (n / 255) (n % 255) off 0 hmod (by omega)]
  rw [Nat.zero_add, hdm]

theorem getD_drop' (l : List Nat) (m n d : Nat) :
    (l.drop m).getD n d = l.getD (m + n) d := by
  simp [List.getD, List.getElem?_drop]

theorem parseXiphLace_ok_shape :
    ∀ (l : List Nat) (off acc n : Nat) (rem : List Nat) (off' : Nat),
      (∀ x ∈ l, x ≤ 255) →
      parseXiphLaceLoop l off acc = Except.ok (n, rem, off') →
      ∃ k b, b < 255 ∧ l = List.replicate k 0xff ++ b :: rem ∧
        n = acc + 255 * k + b ∧ off' = off + k + 1 := by
  intro l
  induction l with
  | nil =>
    intro off acc n rem off' hb h
    exact absurd h (by simp [parseXiphLaceLoop])
  | cons b0 rest ih =>
    intro off acc n rem off' hb h
    rw [parseXiphLaceLoop] at h
    by_cases h0 : b0 = 0xff
    · rw [if_pos h0] at h
      by_cases hov : acc > sizeMax - 0xff
      · rw [if_pos hov] at h
        exact absurd h (by simp)
      · rw [if_neg hov] at h
        obtain ⟨k, b, hb1, hl, hn, ho⟩ := ih (off + 1) (acc + 0xff) n rem off'
          (fun x hx => hb x (by simp [hx])) h
        refine ⟨k + 1, b, hb1, ?_, by omega, by omega⟩
        rw [List.replicate_succ, List.cons_append, hl, h0]
    · rw [if_neg h0] at h
      by_cases hov : acc > sizeMax - b0
      · rw [if_pos hov] at h
        exact absurd h (by simp)
      · rw [if_neg hov] at h
        simp only [Except.ok.injEq, Prod.mk.injEq] at h
        obtain ⟨hn, hrem, hoff⟩ := h
        refine ⟨0, b0, ?_, ?_, by omega, by omega⟩
        · have := hb b0 (by simp)
          omega
        · rw [List.replicate_zero, List.nil_append, hrem]

theorem parseXiphLace_ok_canonical (l : List Nat) (off n : Nat)
    (rem : List Nat) (off' : Nat) (hb : ∀ x ∈ l, x ≤ 255)
    (h : parseXiphLaceLoop l off 0 = Except.ok (n, rem, off')) :
    l = xiphLace n ++ rem ∧ off' = off + n / 255 + 1 := by
  obtain ⟨k, b, hb1, hl, hn, ho⟩ := parseXiphLace_ok_shape l off 0 n rem off' hb h
  have hk : k = n / 255 ∧ b = n % 255 := by
    constructor <;> omega
  constructor
  · rw [hl, xiphLace, hk.1, hk.2, List.append_assoc, List.singleton_append]
  · omega

theorem getD_take_zero (l : List Nat) (k d : Nat) (hk : 0 < k) :
    (l.take k).getD 0 d = l.getD 0 d := by
  cases l with
  | nil => simp
  | cons c t =>
    cases k with
    | zero => omega
    | succ k => rw [List.take_succ_cons]; rfl

/-- Completeness of the parse: every byte sequence addVorbisCodecInfo
    accepts is exactly of the canonical layout 02, Xiph-laced length of
    ident, Xiph-laced length of comment, ident starting 0x01, comment
    starting 0x03, setup starting 0x05, and the stored blobs are the ident
    and setup segments; hence any byte input whose tag bytes or lengths do
    not match the layout is rejected as malformed. -/
theorem addVorbisCodecInfo_ok_shape (cp : List Nat) (blobs : VorbisBlobs)
    (hb : ∀ x ∈ cp, x ≤ 255)
    (h : addVorbisCodecInfo cp = Except.ok blobs) :
    ∃ ident comment setup : List Nat,
      cp = 2 :: (xiphLace ident.length ++ (xiphLace comment.length ++
        (ident ++ (comment ++ setup)))) ∧
      ident.getD 0 0 = 1 ∧ comment.getD 0 0 = 3 ∧ setup.getD 0 0 = 5 ∧
      blobs = { info := ident, books := setup } := by
  cases cp with
  | nil => exact absurd h (by simp [addVorbisCodecInfo])
  | cons b0 rest =>
    simp only [addVorbisCodecInfo] at h
    by_cases h0 : b0 = 2
    · subst h0
      rw [if_neg (by simp)] at h
      cases hp1 : parseXiphLaceLoop rest 1 0 with
      | error e =>
        rw [hp1] at h
        exact absurd h (by simp)
      | ok t1 =>
        obtain ⟨len1, rem1, off1⟩ := t1
        rw [hp1] at h
        dsimp only at h
        cases hp2 : parseXiphLaceLoop rem1 off1 0 with
        | error e =>
          rw [hp2] at h
          exact absurd h (by simp)
        | ok t2 =>
          obtain ⟨len2, rem2, off2⟩ := t2
          rw [hp2] at h
          dsimp only at h
          by_cases g1 : len1 > sizeMax - len2
          · rw [if_pos g1] at h
            exact absurd h (by simp)
          rw [if_neg g1] at h
          by_cases g2 : off2 > sizeMax - (len1 + len2)
          · rw [if_pos g2] at h
            exact absurd h (by simp)
          rw [if_neg g2] at h
          by_cases g3 : (2 :: rest).length < off2 + len1 + len2
          · rw [if_pos g3] at h
            exact absurd h (by simp)
          rw [if_neg g3] at h
          by_cases t1c : rem2.getD 0 0 ≠ 1
          · rw [if_pos t1c] at h
            exact absurd h (by simp)
          rw [if_neg t1c] at h
          by_cases t2c : rem2.getD len1 0 ≠ 3
          · rw [if_pos t2c] at h
            exact absurd h (by simp)
          rw [if_neg t2c] at h
          by_cases t3c : rem2.getD (len1 + len2) 0 ≠ 5
          · rw [if_pos t3c] at h
            exact absurd h (by simp)
          rw [if_neg t3c] at h
          have hblobs : blobs =
              { info := rem2.take len1, books := rem2.drop (len1 + len2) } := by
            simp only [Except.ok.injEq] at h
            exact h.symm
          push_neg at t1c t2c t3c
          have hbytes1 : ∀ x ∈ rest, x ≤ 255 := fun x hx => hb x (by simp [hx])
          obtain ⟨hrest, hoff1⟩ :=
            parseXiphLace_ok_canonical rest 1 len1 rem1 off1 hbytes1 hp1
          have hbytes2 : ∀ x ∈ rem1, x ≤ 255 := fun x hx =>
            hbytes1 x (by rw [hrest]; simp [hx])
          obtain ⟨hrem1, hoff2⟩ :=
            parseXiphLace_ok_canonical rem1 off1 len2 rem2 off2 hbytes2 hp2
          have hclen : (2 :: rest).length = off2 + rem2.length := by
            rw [hrest, hrem1]
            simp only [List.length_cons, List.length_append, xiphLace,
              List.length_replicate, List.length_singleton, List.length_nil]
            omega
          have hlen12 : len1 + len2 ≤ rem2.length := by omega
          have hl1pos : 0 < len1 := by
            by_contra hz
            push_neg at hz
            have hz0 : len1 = 0 := by omega
            rw [hz0] at t2c
            rw [t1c] at t2c
            exact absurd t2c (by norm_num)
          have hl2pos : 0 < len2 := by
            by_contra hz
            push_neg at hz
            have hz0 : len2 = 0 := by omega
            rw [hz0, Nat.add_zero] at t3c
            rw [t2c] at t3c
            exact absurd t3c (by norm_num)
          have hlt : (rem2.take len1).length = len1 := by
            rw [List.length_take]
            omega
          have hlc : ((rem2.drop len1).take len2).length = len2 := by
            rw [List.length_take, List.length_drop]
            omega
          have hsplit : rem2 = rem2.take len1 ++
              ((rem2.drop len1).take len2 ++ rem2.drop (len1 + len2)) := by
            conv_lhs => rw [← List.take_append_drop len1 rem2]
            congr 1
            conv_lhs => rw [← List.take_append_drop len2 (rem2.drop len1)]
            congr 1
            rw [List.drop_drop, Nat.add_comm]
          refine ⟨rem2.take len1, (rem2.drop len1).take len2,
            rem2.drop (len1 + len2), ?_, ?_, ?_, ?_, hblobs⟩
          · rw [hrest, hrem1, hlt, hlc]
            rw [← hsplit]
          · rw [getD_take_zero _ _ _ hl1pos]
            exact t1c
          · rw [getD_take_zero _ _ _ hl2pos, getD_drop']
            rw [Nat.add_zero]
            exact t2c
          · rw [getD_drop']
            rw [Nat.add_zero]
            exact t3c
    · rw [if_pos h0] at h
      exact absurd h (by simp)

theorem addVorbisCodecInfo_wellformed (ident comment setup : List Nat)
    (hi : ident.getD 0 0 = 1) (hc : comment.getD 0 0 = 3)
    (hs : setup.getD 0 0 = 5)
    (hine : ident ≠ []) (hcne : comment ≠ []) (hsne : setup ≠ [])
    (hlen : ident.length + comment.length ≤ 2 ^ 32) :
    addVorbisCodecInfo
      (2 :: (xiphLace ident.length ++ (xiphLace comment.length ++
        (ident ++ (comment ++ setup))))) =
      Except.ok { info := ident, books := setup } := by
  have hsm : sizeMax = 18446744073709551615 := sizeMax_eq
  have hlen' : ident.length + comment.length ≤ 4294967296 := by
    calc ident.length + comment.length ≤ 2 ^ 32 := hlen
    _ = 4294967296 := by norm_num
  have d1 : ident.length / 255 ≤ ident.length := Nat.div_le_self _ _
  have d2 : comment.length / 255 ≤ comment.length := Nat.div_le_self _ _
  unfold addVorbisCodecInfo
  dsimp only
  rw [if_neg (by norm_num)]
  rw [parseXiphLace_lace ident.length _ 1 (by omega)]
  dsimp only
  rw [parseXiphLace_lace comment.length _ _ (by omega)]
  dsimp only
  have hip : 0 < ident.length := List.length_pos.mpr hine
  have hcp : 0 < comment.length := List.length_pos.mpr hcne
  have hsp : 0 < setup.length := List.length_pos.mpr hsne
  have h1 : ¬ ident.length > sizeMax - comment.length := by omega
  have h2 : ¬ (1 + ident.length / 255 + 1 + comment.length / 255 + 1) >
      sizeMax - (ident.length + comment.length) := by omega
  have h3 : ¬ (2 :: (xiphLace ident.length ++ (xiphLace comment.length ++
      (ident ++ (comment ++ setup))))).length <
      (1 + ident.length / 255 + 1 + comment.length / 255 + 1) +
        (ident.length + comment.length) := by
    simp only [List.length_cons, List.length_append, xiphLace,
      List.length_replicate, List.length_singleton]
    omega
  have hb0 : (ident ++ (comment ++ setup)).getD 0 0 = 1 := by
    rw [List.getD_append _ _ _ _ hip]; exact hi
  have hbl1 : (ident ++ (comment ++ setup)).getD ident.length 0 = 3 := by
    rw [List.getD_append_right _ _ _ _ (le_refl _), Nat.sub_self]
    rw [List.getD_append _ _ _ _ hcp]; exact hc
  have hbl12 : (ident ++ (comment ++ setup)).getD
      (ident.length + comment.length) 0 = 5 := by
    rw [List.getD_append_right _ _ _ _ (by omega), Nat.add_sub_cancel_left]
    rw [List.getD_append_right _ _ _ _ (le_refl _), Nat.sub_self]
    exact hs
  have htake : (ident ++ (comment ++ setup)).take ident.length = ident :=
    List.take_left _ _
  have hdrop : (ident ++ (comment ++ setup)).drop
      (ident.length + comment.length) = setup := by
    rw [← List.append_assoc, ← List.length_append]
    exact List.drop_left _ _
  simp only [if_neg h1, if_neg h2, if_neg h3, hb0, hbl1, hbl12, htake, hdrop]
  norm_num
  intro hcontra
  exfalso
  simp only [xiphLace, List.length_append, List.length_replicate,
    List.length_cons, List.length_singleton] at hcontra
  omega

/-- C5: a codec-private byte sequence of the form 02, Xiph-laced length of
    ident, Xiph-laced length of comment, then an ident segment starting
    with 0x01, a comment segment starting with 0x03 and a setup segment
    starting with 0x05 yields exactly the ident segment as the
    identification blob and exactly the setup segment as the setup blob;
    an input whose first byte is not 0x02 (including the empty input) is
    rejected as malformed; and every accepted byte input is exactly of
    that layout, so an input whose tag bytes or lengths do not match the
    layout is also rejected as malformed. -/
theorem c5_vorbis_codec_private_split :
    (∀ ident comment setup : List Nat,
      ident.getD 0 0 = 1 → comment.getD 0 0 = 3 → setup.getD 0 0 = 5 →
      ident ≠ [] → comment ≠ [] → setup ≠ [] →
      ident.length + comment.length ≤ 2 ^ 32 →
      addVorbisCodecInfo
        (2 :: (xiphLace ident.length ++ (xiphLace comment.length ++
          (ident ++ (comment ++ setup))))) =
        Except.ok { info := ident, books := setup }) ∧
    (∀ cp : List Nat, cp.getD 0 0 ≠ 2 →
      addVorbisCodecInfo cp = Except.error ()) ∧
    (∀ (cp : List Nat) (blobs : VorbisBlobs), (∀ x ∈ cp, x ≤ 255) →
      addVorbisCodecInfo cp = Except.ok blobs →
      ∃ ident comment setup : List Nat,
        cp = 2 :: (xiphLace ident.length ++ (xiphLace comment.length ++
          (ident ++ (comment ++ setup)))) ∧
        ident.getD 0 0 = 1 ∧ comment.getD 0 0 = 3 ∧ setup.getD 0 0 = 5 ∧
        blobs = { info := ident, books := setup }) := by
  refine ⟨addVorbisCodecInfo_wellformed, ?_, addVorbisCodecInfo_ok_shape⟩
  intro cp h
  cases cp with
  | nil => rfl
  | cons b0 rest =>
    have hb : b0 ≠ 2 := by simpa using h
    simp [addVorbisCodecInfo, hb]

/-- Witness for C5: ident = 01 64, comment = 03, setup = 05 09, a rejected
    input with first byte 7, and the layout extracted back from the
    accepted byte sequence 02 02 01 01 64 03 05 09. -/
theorem c5_vorbis_codec_private_split_witness :
    addVorbisCodecInfo
      (2 :: (xiphLace 2 ++ (xiphLace 1 ++ ([1, 100] ++ ([3] ++ [5, 9]))))) =
      Except.ok { info := [1, 100], books := [5, 9] } ∧
    addVorbisCodecInfo [7, 1, 1, 3, 5] = Except.error () ∧
    (∃ ident comment setup : List Nat,
      ([2, 2, 1, 1, 100, 3, 5, 9] : List Nat) =
        2 :: (xiphLace ident.length ++ (xiphLace comment.length ++
          (ident ++ (comment ++ setup)))) ∧
      ident.getD 0 0 = 1 ∧ comment.getD 0 0 = 3 ∧ setup.getD 0 0 = 5 ∧
      ({ info := [1, 100], books := [5, 9] } : VorbisBlobs) =
        { info := ident, books := setup }) := by
  refine ⟨?_, ?_, ?_⟩
  · have := c5_vorbis_codec_private_split.1 [1, 100] [3] [5, 9]
      (by decide) (by decide) (by decide) (by decide) (by decide) (by decide)
      (by norm_num)
    simpa using this
  · exact c5_vorbis_codec_private_split.2.1 [7, 1, 1, 3, 5] (by decide)
  · exact c5_vorbis_codec_private_split.2.2 [2, 2, 1, 1, 100, 3, 5, 9]
      { info := [1, 100], books := [5, 9] } (by decide) (by rfl)

/-! ## Matroska AVC NAL reassembly
    (MatroskaExtractor.cpp, MatroskaSource::read, lines 693-787)

The two-pass copy is embedded as one pass producing the destination byte
sequence directly: pass one only computes the destination size and picks
the output buffer (reusing the input in place when every length field is
4 bytes and sizes match), and pass two writes, at strictly increasing
offsets, exactly a 4-byte start code followed by the fragment bytes for
each fragment, which is what the embedding emits.  The size_t wraparound
check of line 716 is kept as arithmetic modulo 2^64. -/

/-- U16_AT / U24_AT / U32_AT-style big-endian read of len bytes at off. -/
def readBEAux (src : List Nat) : Nat → Nat → Nat → Nat
  | _, 0, acc => acc
  | off, len + 1, acc => readBEAux src (off + 1) len (acc * 256 + src.getD off 0)

def readBE (src : List Nat) (off len : Nat) : Nat := readBEAux src off len 0

/-- The fragment loop of MatroskaSource::read (lines 702-772) for one pass,
    emitting the destination bytes.  `fuel` bounds the iteration count; the
    caller passes src.length + 1, which is enough because every iteration
    consumes at least nalLen + 1 source bytes. -/
def nalLoop (nalLen : Nat) (src : List Nat) : Nat → Nat → Except Unit (List Nat)
  | 0, _ => Except.error ()
  | fuel + 1, srcOffset =>
    if srcOffset + nalLen ≤ src.length then
      let nalSize := readBE src srcOffset nalLen
      if (srcOffset + nalLen + nalSize) % 2 ^ 64 ≤ (srcOffset + nalLen) % 2 ^ 64 then
        Except.error ()
      else if srcOffset + nalLen + nalSize > src.length then
        if srcOffset < src.length then Except.error () else Except.ok []
      else
        match nalLoop nalLen src fuel (srcOffset + nalLen + nalSize) with
        | Except.error e => Except.error e
        | Except.ok rest =>
          Except.ok ([0, 0, 0, 1] ++ ((src.drop (srcOffset + nalLen)).take nalSize) ++ rest)
    else
      if srcOffset < src.length then Except.error () else Except.ok []

/-- The AVC branch of MatroskaSource::read applied to one frame. -/
def readAVCFrame (nalLen : Nat) (src : List Nat) : Except Unit (List Nat) :=
  nalLoop nalLen src (src.length + 1) 0

/-- A 4-byte big-endian length field. -/
def u32be (n : Nat) : List Nat :=
  [n / 2 ^ 24 % 256, n / 2 ^ 16 % 256, n / 2 ^ 8 % 256, n % 256]

/-- A frame built of 4-byte-length-prefixed NAL fragments. -/
def encodeNALFrame (frags : List (List Nat)) : List Nat :=
  (frags.map (fun f => u32be f.length ++ f)).flatten

/-- The corresponding Annex-B byte stream: each fragment preceded by the
    start code 00 00 00 01. -/
def annexB (frags : List (List Nat)) : List Nat :=
  (frags.map (fun f => [0, 0, 0, 1] ++ f)).flatten

theorem readBE_u32be (src : List Nat) (off m : Nat) (rest : List Nat)
    (hdrop : src.drop off = u32be m ++ rest) (hm : m < 2 ^ 32) :
    readBE src off 4 = m := by
  have h0 : src.getD off 0 = m / 2 ^ 24 % 256 := by
    have := getD_drop' src off 0 0
    rw [Nat.add_zero] at this
    rw [← this, hdrop]
    rfl
  have h1 : src.getD (off + 1) 0 = m / 2 ^ 16 % 256 := by
    rw [← getD_drop' src off 1 0, hdrop]; rfl
  have h2 : src.getD (off + 2) 0 = m / 2 ^ 8 % 256 := by
    rw [← getD_drop' src off 2 0, hdrop]; rfl
  have h3 : src.getD (off + 3) 0 = m % 256 := by
    rw [← getD_drop' src off 3 0, hdrop]; rfl
  show readBEAux src off 4 0 = m
  simp only [readBEAux, h0]
  rw [show off + 1 + 1 = off + 2 by omega, show off + 2 + 1 = off + 3 by omega]
  rw [h1, h2, h3]
  omega

theorem encodeNALFrame_cons (f : List Nat) (fs : List (List Nat)) :
    encodeNALFrame (f :: fs) = u32be f.length ++ f ++ encodeNALFrame fs := by
  simp [encodeNALFrame]

theorem annexB_cons (f : List Nat) (fs : List (List Nat)) :
    annexB (f :: fs) = [0, 0, 0, 1] ++ f ++ annexB fs := by
  simp [annexB]

theorem u32be_length (n : Nat) : (u32be n).length = 4 := rfl

theorem nalLoop_encode_ok (frags : List (List Nat))
    (hfr : ∀ f ∈ frags, f ≠ [] ∧ f.length < 2 ^ 32) :
    ∀ (src : List Nat) (srcOffset fuel : Nat),
    src.drop srcOffset = encodeNALFrame frags →
    src.length + 2 ^ 32 + 4 < 2 ^ 64 →
    (encodeNALFrame frags).length < fuel →
    nalLoop 4 src fuel srcOffset = Except.ok (annexB frags) := by
  induction frags with
  | nil =>
    intro src srcOffset fuel hdrop hbound hfuel
    have hle : src.length ≤ srcOffset := by
      have := congrArg List.length hdrop
      simp [encodeNALFrame] at this
      omega
    match fuel, hfuel with
    | fuel + 1, _ =>
      show nalLoop 4 src (fuel + 1) srcOffset = _
      unfold nalLoop
      rw [if_neg (by omega), if_neg (by omega)]
      simp [annexB]
  | cons f fs ih =>
    intro src srcOffset fuel hdrop hbound hfuel
    obtain ⟨hfne, hflt⟩ := hfr f (by simp)
    have hfpos : 1 ≤ f.length := List.length_pos.mpr hfne
    have hdrop' : src.drop srcOffset =
        u32be f.length ++ (f ++ encodeNALFrame fs) := by
      rw [hdrop, encodeNALFrame_cons, List.append_assoc]
    have hlen : src.length - srcOffset =
        4 + f.length + (encodeNALFrame fs).length := by
      have := congrArg List.length hdrop
      simp [encodeNALFrame_cons, u32be_length, List.length_drop] at this
      simp [encodeNALFrame] at this ⊢
      omega
    have hoffle : srcOffset + 4 + f.length + (encodeNALFrame fs).length =
        src.length := by
      rcases le_or_lt srcOffset src.length with hc | hc
      · omega
      · exfalso
        have : src.drop srcOffset = [] := List.drop_eq_nil_of_le (by omega)
        rw [this] at hdrop'
        have := congrArg List.length hdrop'
        simp [u32be_length] at this
        omega
    have hread : readBE src srcOffset 4 = f.length :=
      readBE_u32be src srcOffset f.length _ hdrop' hflt
    match fuel, hfuel with
    | fuel + 1, hfuel =>
      show nalLoop 4 src (fuel + 1) srcOffset = _
      unfold nalLoop
      rw [if_pos (by omega)]
      simp only [hread]
      rw [if_neg (by omega)]
      rw [if_neg (by omega)]
      have hdrop2 : src.drop (srcOffset + 4 + f.length) = encodeNALFrame fs := by
        have h1 : src.drop (srcOffset + 4 + f.length) =
            (src.drop srcOffset).drop (4 + f.length) := by
          rw [List.drop_drop]
          congr 1
          omega
        rw [h1, hdrop']
        rw [show (4 + f.length) = (u32be f.length ++ f).length by
          simp [u32be_length]]
        rw [← List.append_assoc]
        exact List.drop_left _ _
      have htake : (src.drop (srcOffset + 4)).take f.length = f := by
        have h1 : src.drop (srcOffset + 4) = (src.drop srcOffset).drop 4 := by
          rw [List.drop_drop]
        rw [h1, hdrop']
        rw [show (4 : Nat) = (u32be f.length).length from rfl]
        rw [List.drop_left]
        exact List.take_left _ _
      rw [ih (fun g hg => hfr g (by simp [hg])) src (srcOffset + 4 + f.length)
        fuel hdrop2 hbound (by
          simp only [encodeNALFrame_cons, List.length_append, u32be_length] at hfuel
          omega)]
      rw [htake, annexB_cons]

theorem nalLoop_truncated (frags : List (List Nat))
    (hfr : ∀ f ∈ frags, f ≠ [] ∧ f.length < 2 ^ 32) :
    ∀ (src : List Nat) (srcOffset fuel n : Nat) (tail : List Nat),
    src.drop srcOffset = encodeNALFrame frags ++ (u32be n ++ tail) →
    tail.length < n → n < 2 ^ 32 →
    src.length + 2 ^ 32 + 4 < 2 ^ 64 →
    (encodeNALFrame frags).length < fuel →
    nalLoop 4 src fuel srcOffset = Except.error () := by
  induction frags with
  | nil =>
    intro src srcOffset fuel n tail hdrop htail hn hbound hfuel
    rw [show encodeNALFrame [] ++ (u32be n ++ tail) = u32be n ++ tail by
      simp [encodeNALFrame]] at hdrop
    have hlen : src.length - srcOffset = 4 + tail.length := by
      have := congrArg List.length hdrop
      simp [u32be_length, List.length_drop] at this
      omega
    have hoffle : srcOffset + 4 + tail.length = src.length := by
      rcases le_or_lt srcOffset src.length with hc | hc
      · omega
      · exfalso
        have h0 : src.drop srcOffset = [] := List.drop_eq_nil_of_le (by omega)
        rw [h0] at hdrop
        have := congrArg List.length hdrop
        simp [u32be_length] at this
        omega
    have hread : readBE src srcOffset 4 = n :=
      readBE_u32be src srcOffset n tail hdrop hn
    match fuel, hfuel with
    | fuel + 1, _ =>
      show nalLoop 4 src (fuel + 1) srcOffset = _
      unfold nalLoop
      rw [if_pos (by omega)]
      simp only [hread]
      rw [if_neg (by omega)]
      rw [if_pos (by omega)]
      rw [if_pos (by omega)]
  | cons f fs ih =>
    intro src srcOffset fuel n tail hdrop htail hn hbound hfuel
    obtain ⟨hfne, hflt⟩ := hfr f (by simp)
    have hfpos : 1 ≤ f.length := List.length_pos.mpr hfne
    have hdrop' : src.drop srcOffset =
        u32be f.length ++ (f ++ (encodeNALFrame fs ++ (u32be n ++ tail))) := by
      rw [hdrop, encodeNALFrame_cons]
      simp [List.append_assoc]
    have hlen : src.length - srcOffset =
        4 + f.length + (encodeNALFrame fs).length + 4 + tail.length := by
      have := congrArg List.length hdrop
      simp [encodeNALFrame_cons, u32be_length, List.length_drop,
        List.length_append] at this
      simp [encodeNALFrame] at this ⊢
      omega
    have hoffle : srcOffset + 4 + f.length + (encodeNALFrame fs).length + 4 +
        tail.length = src.length := by
      rcases le_or_lt srcOffset src.length with hc | hc
      · omega
      · exfalso
        have h0 : src.drop srcOffset = [] := List.drop_eq_nil_of_le (by omega)
        rw [h0] at hdrop'
        have := congrArg List.length hdrop'
        simp [u32be_length] at this
        omega
    have hread : readBE src srcOffset 4 = f.length :=
      readBE_u32be src srcOffset f.length _ hdrop' hflt
    match fuel, hfuel with
    | fuel + 1, hfuel =>
      show nalLoop 4 src (fuel + 1) srcOffset = _
      unfold nalLoop
      rw [if_pos (by omega)]
      simp only [hread]
      rw [if_neg (by omega)]
      rw [if_neg (by omega)]
      have hdrop2 : src.drop (srcOffset + 4 + f.length) =
          encodeNALFrame fs ++ (u32be n ++ tail) := by
        have h1 : src.drop (srcOffset + 4 + f.length) =
            (src.drop srcOffset).drop (4 + f.length) := by
          rw [List.drop_drop]
          congr 1
          omega
        rw [h1, hdrop']
        rw [show (4 + f.length) = (u32be f.length ++ f).length by
          simp [u32be_length]]
        rw [← List.append_assoc]
        exact List.drop_left _ _
      rw [ih (fun g hg => hfr g (by simp [hg])) src (srcOffset + 4 + f.length)
        fuel n tail hdrop2 htail hn hbound (by
          simp only [encodeNALFrame_cons, List.length_append, u32be_length] at hfuel
          omega)]

/-- C4: for every AVC frame consisting of 4-byte-length-prefixed nonempty
    NAL fragments, MatroskaSource::read emits the same fragments each
    preceded by the start code 00 00 00 01 in place of its length prefix;
    for every frame whose final length field claims more bytes than remain,
    read returns the malformed-input error and no buffer.  (A NAL fragment
    is nonempty by definition; the code rejects a zero length field via the
    wraparound check on line 716.  The size bounds make the frame fit a
    real buffer, ruling out size_t wraparound.) -/
theorem c4_avc_nal_reassembly :
    (∀ frags : List (List Nat),
      (∀ f ∈ frags, f ≠ [] ∧ f.length < 2 ^ 32) →
      (encodeNALFrame frags).length + 2 ^ 32 + 4 < 2 ^ 64 →
      readAVCFrame 4 (encodeNALFrame frags) = Except.ok (annexB frags)) ∧
    (∀ (frags : List (List Nat)) (n : Nat) (tail : List Nat),
      (∀ f ∈ frags, f ≠ [] ∧ f.length < 2 ^ 32) →
      tail.length < n → n < 2 ^ 32 →
      (encodeNALFrame frags).length + tail.length + 2 ^ 32 + 8 < 2 ^ 64 →
      readAVCFrame 4 (encodeNALFrame frags ++ (u32be n ++ tail)) =
        Except.error ()) := by
  constructor
  · intro frags hfr hbound
    exact nalLoop_encode_ok frags hfr _ 0 _ (by simp) hbound (by omega)
  · intro frags n tail hfr htail hn hbound
    refine nalLoop_truncated frags hfr _ 0 _ n tail (by simp) htail hn ?_ ?_
    · simp only [List.length_append, u32be_length]
      omega
    · simp only [List.length_append, u32be_length]
      omega

/-- Witness for C4: the spec's example frame 00000003 AABBCC 00000002 DDEE
    becomes 00000001 AABBCC 00000001 DDEE, and a frame whose final length
    field claims 2 bytes with only 1 remaining is malformed. -/
theorem c4_avc_nal_reassembly_witness :
    readAVCFrame 4 (encodeNALFrame [[0xAA, 0xBB, 0xCC], [0xDD, 0xEE]]) =
      Except.ok (annexB [[0xAA, 0xBB, 0xCC], [0xDD, 0xEE]]) ∧
    encodeNALFrame [[0xAA, 0xBB, 0xCC], [0xDD, 0xEE]] =
      [0, 0, 0, 3, 0xAA, 0xBB, 0xCC, 0, 0, 0, 2, 0xDD, 0xEE] ∧
    annexB [[0xAA, 0xBB, 0xCC], [0xDD, 0xEE]] =
      [0, 0, 0, 1, 0xAA, 0xBB, 0xCC, 0, 0, 0, 1, 0xDD, 0xEE] ∧
    readAVCFrame 4 (encodeNALFrame [] ++ (u32be 2 ++ [0x55])) =
      Except.error () :=
  ⟨c4_avc_nal_reassembly.1 _ (by decide) (by decide), rfl, rfl,
   c4_avc_nal_reassembly.2 [] 2 [0x55] (by simp) (by decide) (by norm_num)
     (by decide)⟩

/-! ## Wi-Fi supplicant control-socket event normalization
    (frameworks/opt/net/wifi/libwifi_system/wifi.cpp, wifi_wait_on_socket,
    lines 212-285)

The normalization applied to a genuine received event string (after the
synthetic-event and EOF branches).  C-string pointers become indexes into
a character list: strchr is an index search, the memmove of the IFNAME
branch removes the characters strictly between the first space and the
matching tag-closing bracket, keeping everything up to and including the
space.  The out-of-bounds `match[1]` read at the end of the buffer is
modelled by a NUL default. -/

/-- strchr as an index search. -/
def strchrIdx : List Char → Char → Option Nat
  | [], _ => none
  | x :: xs, c => if x = c then some 0 else (strchrIdx xs c).map (· + 1)

/-- strchr starting from an offset, as used for strchr(match + 2, ...). -/
def strchrFrom (l : List Char) (c : Char) (start : Nat) : Option Nat :=
  (strchrIdx (l.drop start) c).map (start + ·)

def ifnameTag : List Char := "IFNAME=".toList
def wpaEventIgnore : List Char := "CTRL-EVENT-IGNORE ".toList

/-- The event-normalization tail of wifi_wait_on_socket (lines 256-284). -/
def wifi_wait_on_socket_normalize (buf : List Char) : List Char :=
  if buf.take 7 = ifnameTag then
    match strchrIdx buf ' ' with
    | none => wpaEventIgnore
    | some sp =>
      if buf.getD (sp + 1) '\x00' = '<' then
        match strchrFrom buf '>' (sp + 2) with
        | some gt => buf.take (sp + 1) ++ buf.drop (gt + 1)
        | none => buf
      else buf
  else if buf.getD 0 '\x00' = '<' then
    match strchrIdx buf '>' with
    | some gt => buf.drop (gt + 1)
    | none => buf
  else buf

theorem strchrIdx_append_not (u : List Char) (c : Char) (hu : ∀ x ∈ u, x ≠ c) :
    ∀ v : List Char, strchrIdx (u ++ v) c = (strchrIdx v c).map (u.length + ·) := by
  induction u with
  | nil =>
    intro v
    simp only [List.nil_append, List.length_nil]
    cases h : strchrIdx v c <;> simp [h]
  | cons x xs ih =>
    intro v
    have hx : x ≠ c := hu x (by simp)
    simp only [List.cons_append, strchrIdx, if_neg hx, List.append_eq]
    rw [ih (fun y hy => hu y (by simp [hy])) v]
    cases h : strchrIdx v c
    · simp [h]
    · simp [h]
      omega

theorem strchrIdx_exact (u : List Char) (c : Char) (v : List Char)
    (hu : ∀ x ∈ u, x ≠ c) :
    strchrIdx (u ++ c :: v) c = some u.length := by
  rw [strchrIdx_append_not u c hu]
  simp [strchrIdx]

/-- C2 (amended): for every received event of the form
    IFNAME=<iface> <N>..., the delivered event retains the leading
    IFNAME=<iface> prefix and the separating space, and only the bracketed
    message-level tag is removed. -/
theorem c2_event_normalization (iface tag rest : List Char)
    (hif : ∀ c ∈ iface, c ≠ ' ') (htag : ∀ c ∈ tag, c ≠ '>') :
    wifi_wait_on_socket_normalize
      (ifnameTag ++ iface ++ (' ' :: '<' :: (tag ++ ('>' :: rest)))) =
      ifnameTag ++ iface ++ (' ' :: rest) := by
  set u := ifnameTag ++ iface with hu
  have hulen : u.length = 7 + iface.length := by
    simp [hu, ifnameTag]
    omega
  have hift : ∀ c ∈ ifnameTag, c ≠ ' ' := by decide
  have huns : ∀ c ∈ u, c ≠ ' ' := by
    intro c hc
    rw [hu] at hc
    rcases List.mem_append.mp hc with h | h
    · exact hift c h
    · exact hif c h
  have hbuf : ifnameTag ++ iface ++ (' ' :: '<' :: (tag ++ ('>' :: rest))) =
      u ++ (' ' :: '<' :: (tag ++ ('>' :: rest))) := by rw [hu]
  rw [hbuf]
  unfold wifi_wait_on_socket_normalize
  rw [if_pos (by
    rw [show (7 : Nat) = ifnameTag.length from rfl, hu, List.append_assoc,
      List.take_left]
    )]
  rw [strchrIdx_exact u ' ' _ huns]
  dsimp only
  rw [List.getD_append_right _ _ _ _ (by omega)]
  rw [show u.length + 1 - u.length = 1 by omega]
  rw [if_pos (by rfl)]
  have hdrop2 : (u ++ (' ' :: '<' :: (tag ++ ('>' :: rest)))).drop
      (u.length + 2) = tag ++ ('>' :: rest) := by
    rw [List.drop_append 2]
    rfl
  rw [strchrFrom, hdrop2, strchrIdx_exact tag '>' rest htag]
  have htake : (u ++ (' ' :: '<' :: (tag ++ ('>' :: rest)))).take
      (u.length + 1) = u ++ [' '] := by
    rw [List.take_append 1]
    rfl
  have hdropf : (u ++ (' ' :: '<' :: (tag ++ ('>' :: rest)))).drop
      (u.length + 2 + tag.length + 1) = rest := by
    have hsplit : u ++ (' ' :: '<' :: (tag ++ ('>' :: rest))) =
        (u ++ (' ' :: '<' :: tag)) ++ ('>' :: rest) := by
      simp
    rw [hsplit]
    have hlen2 : u.length + 2 + tag.length + 1 =
        (u ++ (' ' :: '<' :: tag)).length + 1 := by
      simp
      omega
    rw [hlen2, List.drop_append 1]
    rfl
  rw [htake]
  simp only [Option.map_some']
  rw [hdropf]
  simp [hu]

/-- C2 counterexample: the raw payload
    IFNAME=wlan0 <3>CTRL-EVENT-CONNECTED - foo is delivered as
    IFNAME=wlan0 CTRL-EVENT-CONNECTED - foo: the memmove on line 263 copies
    to match + 1, one past the separating space, so the IFNAME= prefix is
    never removed, contradicting the claimed delivery of exactly
    CTRL-EVENT-CONNECTED - foo. -/
theorem c2_event_normalization_counterexample :
    wifi_wait_on_socket_normalize
        "IFNAME=wlan0 <3>CTRL-EVENT-CONNECTED - foo".toList =
      "IFNAME=wlan0 CTRL-EVENT-CONNECTED - foo".toList ∧
    wifi_wait_on_socket_normalize
        "IFNAME=wlan0 <3>CTRL-EVENT-CONNECTED - foo".toList ≠
      "CTRL-EVENT-CONNECTED - foo".toList := by
  constructor
  · decide
  · decide

/-- Witness for C2: the amended theorem at the spec's example payload. -/
theorem c2_event_normalization_witness :
    wifi_wait_on_socket_normalize
      (ifnameTag ++ "wlan0".toList ++
        (' ' :: '<' :: ("3".toList ++ ('>' :: "CTRL-EVENT-CONNECTED - foo".toList)))) =
      ifnameTag ++ "wlan0".toList ++ (' ' :: "CTRL-EVENT-CONNECTED - foo".toList) :=
  c2_event_normalization "wlan0".toList "3".toList
    "CTRL-EVENT-CONNECTED - foo".toList (by decide) (by decide)

/-! ## Word/line break iterator: soft-hyphen rejection
    (frameworks/minikin/libs/minikin/WordBreaker.cpp, next lines 198-209,
    isBreakValid lines 72-118)

Text is a list of UTF-16 code units; the ICU break engine is abstracted as
the list of successive positions it proposes (the results of the
following/next calls, ending with the DONE sentinel -1), and the ICU
character-property functions as an oracle record. -/

def isU16Trail (c : Nat) : Bool := 0xDC00 ≤ c && c ≤ 0xDFFF
def isU16Lead (c : Nat) : Bool := 0xD800 ≤ c && c < 0xDC00
def u16Combine (lead trail : Nat) : Nat :=
  (lead - 0xD800) * 0x400 + (trail - 0xDC00) + 0x10000

/-- U16_PREV: the code point ending at offset i, and the offset of its
    first code unit. -/
def u16PrevInfo (buf : List Nat) (i : Nat) : Nat × Nat :=
  let j := i - 1
  let c := buf.getD j 0
  if isU16Trail c ∧ 0 < j ∧ isU16Lead (buf.getD (j - 1) 0) then
    (u16Combine (buf.getD (j - 1) 0) c, j - 1)
  else (c, j)

/-- U16_NEXT: the code point starting at offset i (bounded by e). -/
def u16NextCp (buf : List Nat) (i e : Nat) : Nat :=
  let c := buf.getD i 0
  if isU16Lead c ∧ i + 1 < e ∧ isU16Trail (buf.getD (i + 1) 0) then
    u16Combine c (buf.getD (i + 1) 0)
  else c

/-- The ICU character-property queries isBreakValid depends on. -/
structure UnicodeOracle where
  lineBreak : Nat → Nat
  isEmoji : Nat → Bool
  isEmojiModifier : Nat → Bool
  isEmojiBase : Nat → Bool

def CHAR_SOFT_HYPHEN : Nat := 0xAD
def CHAR_ZWJ : Nat := 0x200D
def U_LB_ALPHABETIC : Nat := 2
def U_LB_POSTFIX_NUMERIC : Nat := 21
def U_LB_PREFIX_NUMERIC : Nat := 22
def U_LB_HEBREW_LETTER : Nat := 36

/-- isBreakValid (WordBreaker.cpp lines 72-118). -/
def isBreakValid (o : UnicodeOracle) (buf : List Nat) (bufEnd i : Nat) : Bool :=
  let p := u16PrevInfo buf i
  let codePoint := p.1
  let prevOffset := p.2
  if codePoint = CHAR_SOFT_HYPHEN then false
  else if codePoint = 0x1039 then false
  else
    let nextCodepoint := u16NextCp buf i bufEnd
    let lineBreak := o.lineBreak codePoint
    if (lineBreak = U_LB_ALPHABETIC ∨ lineBreak = U_LB_HEBREW_LETTER) ∧
        (o.lineBreak nextCodepoint = U_LB_PREFIX_NUMERIC ∨
         o.lineBreak nextCodepoint = U_LB_POSTFIX_NUMERIC) then false
    else if codePoint = CHAR_ZWJ ∧ o.isEmoji nextCodepoint then false
    else if o.isEmojiModifier nextCodepoint then
      let cp2 := if codePoint = 0xFE0F ∧ 0 < prevOffset then
          (u16PrevInfo buf prevOffset).1
        else codePoint
      if o.isEmojiBase cp2 then false else true
    else true

/-- The do-while loop of WordBreaker::next (lines 199-207): keep asking the
    engine for proposals while the proposal is not DONE (-1), not the text
    size, and fails isBreakValid. -/
def wordBreakerNextLoop (o : UnicodeOracle) (text : List Nat) :
    List Int → Int
  | [] => -1
  | r :: rs =>
    if r = -1 then r
    else if r.toNat = text.length then r
    else if isBreakValid o text text.length r.toNat then r
    else wordBreakerNextLoop o text rs

/-- A concrete oracle for closed evaluations. -/
def trivialOracle : UnicodeOracle :=
  { lineBreak := fun _ => 0
  , isEmoji := fun _ => false
  , isEmojiModifier := fun _ => false
  , isEmojiBase := fun _ => false }

theorem isBreakValid_not_soft_hyphen {o : UnicodeOracle} {buf : List Nat}
    {bufEnd i : Nat} (h : isBreakValid o buf bufEnd i = true) :
    (u16PrevInfo buf i).1 ≠ CHAR_SOFT_HYPHEN := by
  intro hc
  simp [isBreakValid, hc] at h

/-- C7 (amended): next() returns the first engine proposal that is DONE,
    the text length, or passes isBreakValid; consequently a returned
    position that is neither DONE nor the text length never has a soft
    hyphen (U+00AD) immediately before it. -/
theorem c7_word_breaker_soft_hyphen (o : UnicodeOracle) (text : List Nat) :
    (∀ props : List Int,
      wordBreakerNextLoop o text props =
        (props.find? (fun r => decide (r = -1) || decide (r.toNat = text.length) ||
          isBreakValid o text text.length r.toNat)).getD (-1)) ∧
    (∀ (props : List Int) (r : Int),
      wordBreakerNextLoop o text props = r → r ≠ -1 → r.toNat ≠ text.length →
      isBreakValid o text text.length r.toNat = true ∧
      (u16PrevInfo text r.toNat).1 ≠ CHAR_SOFT_HYPHEN) := by
  constructor
  · intro props
    induction props with
    | nil => rfl
    | cons r rs ih =>
      by_cases h1 : r = -1
      · simp [wordBreakerNextLoop, List.find?, h1]
      · by_cases h2 : r.toNat = text.length
        · simp [wordBreakerNextLoop, List.find?, h1, h2]
        · by_cases h3 : isBreakValid o text text.length r.toNat = true
          · simp [wordBreakerNextLoop, List.find?, h1, h2, h3]
          · simp only [Bool.not_eq_true] at h3
            simp [wordBreakerNextLoop, List.find?, h1, h2, h3, ih]
  · intro props
    induction props with
    | nil =>
      intro r hr hne _
      exact absurd hr.symm hne
    | cons p ps ih =>
      intro r hr hne hsize
      by_cases h1 : p = -1
      · rw [wordBreakerNextLoop, if_pos h1] at hr
        exact absurd (hr ▸ h1) hne
      · by_cases h2 : p.toNat = text.length
        · rw [wordBreakerNextLoop, if_neg h1, if_pos h2] at hr
          exact absurd (hr ▸ h2) hsize
        · by_cases h3 : isBreakValid o text text.length p.toNat = true
          · rw [wordBreakerNextLoop, if_neg h1, if_neg h2, if_pos h3] at hr
            subst hr
            exact ⟨h3, isBreakValid_not_soft_hyphen h3⟩
          · rw [wordBreakerNextLoop, if_neg h1, if_neg h2, if_neg h3] at hr
            exact ih r hr hne hsize

/-- C7 counterexample: for the text "a" followed by a soft hyphen, the
    engine proposal 2 (the end of the text) has the soft hyphen
    immediately before it, and next() returns exactly that position,
    because the loop exits on result == mTextSize before ever consulting
    isBreakValid. -/
theorem c7_word_breaker_soft_hyphen_counterexample :
    wordBreakerNextLoop trivialOracle [97, 0xAD] [2] = 2 ∧
    (2 : Int).toNat = ([97, 0xAD] : List Nat).length ∧
    (u16PrevInfo [97, 0xAD] 2).1 = CHAR_SOFT_HYPHEN :=
  ⟨rfl, rfl, rfl⟩

/-- Witness for C7: on text "a", soft hyphen, "b", "c" with proposals
    2 then 3, the loop skips the soft-hyphen boundary 2 and returns 3. -/
theorem c7_word_breaker_soft_hyphen_witness :
    wordBreakerNextLoop trivialOracle [97, 0xAD, 98, 99] [2, 3] =
      (([2, 3] : List Int).find? (fun r => decide (r = -1) ||
        decide (r.toNat = ([97, 0xAD, 98, 99] : List Nat).length) ||
        isBreakValid trivialOracle [97, 0xAD, 98, 99]
          ([97, 0xAD, 98, 99] : List Nat).length r.toNat)).getD (-1) ∧
    (isBreakValid trivialOracle [97, 0xAD, 98, 99]
        ([97, 0xAD, 98, 99] : List Nat).length (3 : Int).toNat = true ∧
     (u16PrevInfo [97, 0xAD, 98, 99] (3 : Int).toNat).1 ≠ CHAR_SOFT_HYPHEN) :=
  ⟨(c7_word_breaker_soft_hyphen trivialOracle [97, 0xAD, 98, 99]).1 [2, 3],
   (c7_word_breaker_soft_hyphen trivialOracle [97, 0xAD, 98, 99]).2 [2, 3] 3
     rfl (by decide) (by decide)⟩

/-! ## SPIR-V linker: vector-shuffle undef fix-up
    (frameworks/rs/rsov/compiler/RSSPIRVWriter.cpp, FixVectorShuffles,
    lines 560-575; string primitives from LinkerModule.cpp)

Lines are lists of characters.  std::string::find / replace, StringRef
trim and the per-line loop are embedded below, followed by a small theory
of substring occurrences used to settle the idempotence claim. -/

/-- std::string::find as an index search for a substring. -/
def findSub (pat : List Char) : List Char → Option Nat
  | [] => if pat.isEmpty then some 0 else none
  | c :: t => if pat.isPrefixOf (c :: t) then some 0 else (findSub pat t).map (· + 1)

def containsSub (l pat : List Char) : Bool := (findSub pat l).isSome

/-- SPIRVLine::replaceStr: replace the first occurrence, if any. -/
def replaceStrOnce (l pat new : List Char) : List Char :=
  match findSub pat l with
  | none => l
  | some i => l.take i ++ new ++ l.drop (i + pat.length)

theorem isPrefixOf_iff (pat : List Char) :
    ∀ l : List Char, pat.isPrefixOf l = true ↔ ∃ t, l = pat ++ t := by
  induction pat with
  | nil =>
    intro l
    simp [List.isPrefixOf]
  | cons p ps ih =>
    intro l
    cases l with
    | nil => simp [List.isPrefixOf]
    | cons c t =>
      simp only [List.isPrefixOf, Bool.and_eq_true, beq_iff_eq, ih t,
        List.cons_append, List.cons.injEq]
      constructor
      · rintro ⟨h1, u, h2⟩
        exact ⟨u, h1.symm, h2⟩
      · rintro ⟨u, h1, h2⟩
        exact ⟨h1.symm, u, h2⟩

theorem findSub_some (pat l : List Char) (i : Nat)
    (h : findSub pat l = some i) :
    i + pat.length ≤ l.length ∧
    l = l.take i ++ pat ++ l.drop (i + pat.length) := by
  induction l generalizing i with
  | nil =>
    by_cases hp : pat.isEmpty
    · rw [findSub, if_pos hp] at h
      obtain rfl : (0 : Nat) = i := Option.some.inj h
      rw [List.isEmpty_iff] at hp
      simp [hp]
    · rw [findSub, if_neg hp] at h
      exact Option.noConfusion h
  | cons c t ih =>
    by_cases hp : pat.isPrefixOf (c :: t) = true
    · rw [findSub, if_pos hp] at h
      obtain rfl : (0 : Nat) = i := Option.some.inj h
      obtain ⟨u, hu⟩ := (isPrefixOf_iff pat (c :: t)).mp hp
      have hlen := congrArg List.length hu
      simp only [List.length_cons, List.length_append] at hlen
      constructor
      · simp only [List.length_cons]
        omega
      · simp only [List.take_zero, List.nil_append, Nat.zero_add]
        rw [hu, List.drop_left]
    · rw [findSub, if_neg hp] at h
      cases hf : findSub pat t with
      | none => rw [hf] at h; exact Option.noConfusion h
      | some j =>
        rw [hf] at h
        obtain rfl : j + 1 = i := Option.some.inj h
        obtain ⟨hle, heq⟩ := ih j hf
        constructor
        · simp only [List.length_cons]
          omega
        · simp only [List.take_succ_cons,
            show j + 1 + pat.length = (j + pat.length) + 1 by omega,
            List.drop_succ_cons, List.cons_append]
          rw [← heq]

theorem containsSub_of_parts (l pat u v : List Char) (h : l = u ++ pat ++ v) :
    containsSub l pat = true := by
  induction u generalizing l with
  | nil =>
    subst h
    simp only [List.nil_append]
    cases pat with
    | nil => cases v <;> rfl
    | cons p ps =>
      rw [containsSub]
      rw [show (p :: ps) ++ v = p :: (ps ++ v) from rfl]
      rw [findSub]
      rw [if_pos ((isPrefixOf_iff _ _).mpr ⟨v, by simp⟩)]
      rfl
  | cons x xs ih =>
    subst h
    rw [List.cons_append, List.cons_append]
    have hrec := ih (xs ++ pat ++ v) rfl
    rw [containsSub] at hrec ⊢
    rw [findSub]
    split
    · rfl
    · cases hf : findSub pat (xs ++ pat ++ v) with
      | none =>
        rw [hf] at hrec
        exact absurd hrec (by simp)
      | some j => simp [hf]

theorem containsSub_iff (l pat : List Char) :
    containsSub l pat = true ↔ ∃ u v, l = u ++ pat ++ v := by
  constructor
  · intro h
    rw [containsSub] at h
    cases hf : findSub pat l with
    | none => rw [hf] at h; exact absurd h (by simp)
    | some i =>
      obtain ⟨_, heq⟩ := findSub_some pat l i hf
      exact ⟨l.take i, l.drop (i + pat.length), heq⟩
  · rintro ⟨u, v, h⟩
    exact containsSub_of_parts l pat u v h

/-- The C whitespace class used by llvm::StringRef::trim and isspace. -/
def isCWS (c : Char) : Bool :=
  c = ' ' || c = '\t' || c = '\n' || c = '\x0b' || c = '\x0c' || c = '\r'

/-- llvm::StringRef::trim: strip leading and trailing whitespace. -/
def trimWS (l : List Char) : List Char :=
  ((l.dropWhile isCWS).reverse.dropWhile isCWS).reverse

def opVectorShuffleStr : List Char := "OpVectorShuffle".toList
def undefSentinelStr : List Char := " 4294967295 ".toList
def zeroReplacementStr : List Char := " 0 ".toList

/-- The while loop of FixVectorShuffles (RSSPIRVWriter.cpp lines 568-569).
    Each replacement shortens the line by 9 characters, so fuel larger than
    a ninth of the length suffices; the caller passes length + 1. -/
def shuffleLoop : Nat → List Char → List Char
  | 0, l => l
  | fuel + 1, l =>
    if containsSub l undefSentinelStr then
      shuffleLoop fuel (replaceStrOnce l undefSentinelStr zeroReplacementStr)
    else l

/-- The per-line body of FixVectorShuffles (lines 563-572): skip lines
    without OpVectorShuffle; otherwise push one space, replace every
    " 4294967295 " with " 0 ", and trim. -/
def fixVectorShuffleLine (l : List Char) : List Char :=
  if containsSub l opVectorShuffleStr then
    trimWS (shuffleLoop (l.length + 1) (l ++ [' ']))
  else l

/-- FixVectorShuffles over the lines of the main-function block. -/
def FixVectorShuffles (lines : List (List Char)) : List (List Char) :=
  lines.map fixVectorShuffleLine


theorem replaceStrOnce_length (l pat new : List Char) (i : Nat)
    (h : findSub pat l = some i) :
    (replaceStrOnce l pat new).length + pat.length = l.length + new.length := by
  obtain ⟨hle, -⟩ := findSub_some pat l i h
  rw [replaceStrOnce, h]
  simp only [List.length_append, List.length_take, List.length_drop]
  omega

theorem containsSub_nil (pat : List Char) (h : pat ≠ []) :
    containsSub [] pat = false := by
  rw [containsSub, findSub, if_neg (by simpa using h)]
  rfl

theorem shuffleLoop_no_pat : ∀ (fuel : Nat) (l : List Char),
    l.length < 9 * fuel →
    containsSub (shuffleLoop fuel l) undefSentinelStr = false := by
  intro fuel
  induction fuel with
  | zero =>
    intro l h
    exact absurd h (by omega)
  | succ fuel ih =>
    intro l h
    rw [shuffleLoop]
    by_cases hc : containsSub l undefSentinelStr = true
    · rw [if_pos hc]
      apply ih
      rw [containsSub] at hc
      cases hf : findSub undefSentinelStr l with
      | none =>
        rw [hf] at hc
        exact absurd hc (by simp)
      | some i =>
        have hrl := replaceStrOnce_length l undefSentinelStr zeroReplacementStr i hf
        have hplen : undefSentinelStr.length = 12 := rfl
        have hzlen : zeroReplacementStr.length = 3 := rfl
        omega
    · rw [if_neg hc]
      simpa using hc

theorem shuffleLoop_of_not (fuel : Nat) (l : List Char)
    (h : containsSub l undefSentinelStr = false) : shuffleLoop fuel l = l := by
  cases fuel with
  | zero => rfl
  | succ f => rw [shuffleLoop, if_neg (by simp [h])]

theorem getLast?_drop_of_ne_nil (l : List Char) (k : Nat)
    (h : l.drop k ≠ []) : (l.drop k).getLast? = l.getLast? := by
  conv_rhs => rw [← List.take_append_drop k l]
  rw [List.getLast?_append_of_ne_nil _ h]

theorem replaceStrOnce_last (l : List Char) (i : Nat)
    (hf : findSub undefSentinelStr l = some i)
    (h : l.getLast? = some ' ') :
    (replaceStrOnce l undefSentinelStr zeroReplacementStr).getLast? = some ' ' := by
  rw [replaceStrOnce, hf]
  dsimp only
  by_cases hd : l.drop (i + undefSentinelStr.length) = []
  · rw [hd, List.append_assoc]
    rw [List.getLast?_append_of_ne_nil _ (by simp [zeroReplacementStr])]
    rfl
  · rw [List.append_assoc]
    rw [List.getLast?_append_of_ne_nil _ (by simp [hd])]
    rw [List.getLast?_append_of_ne_nil _ hd]
    rw [getLast?_drop_of_ne_nil _ _ hd, h]

theorem shuffleLoop_last : ∀ (fuel : Nat) (l : List Char),
    l.getLast? = some ' ' → (shuffleLoop fuel l).getLast? = some ' ' := by
  intro fuel
  induction fuel with
  | zero => intro l h; exact h
  | succ fuel ih =>
    intro l h
    rw [shuffleLoop]
    by_cases hc : containsSub l undefSentinelStr = true
    · rw [if_pos hc]
      rw [containsSub] at hc
      cases hf : findSub undefSentinelStr l with
      | none =>
        rw [hf] at hc
        exact absurd hc (by simp)
      | some i => exact ih _ (replaceStrOnce_last l i hf h)
    · rw [if_neg hc]
      exact h

def onlySpaceWS (l : List Char) : Prop := ∀ c ∈ l, isCWS c = true → c = ' '

theorem replaceStrOnce_onlyws (l : List Char)
    (h : onlySpaceWS l) :
    onlySpaceWS (replaceStrOnce l undefSentinelStr zeroReplacementStr) := by
  rw [replaceStrOnce]
  cases hf : findSub undefSentinelStr l with
  | none => exact h
  | some i =>
    intro c hc
    rcases List.mem_append.mp hc with hc1 | hc2
    · rcases List.mem_append.mp hc1 with hc3 | hc4
      · exact h c (List.take_subset _ _ hc3)
      · exact (by decide : ∀ x ∈ zeroReplacementStr, isCWS x = true → x = ' ')
          c hc4
    · exact h c (List.drop_subset _ _ hc2)

theorem shuffleLoop_onlyws : ∀ (fuel : Nat) (l : List Char),
    onlySpaceWS l → onlySpaceWS (shuffleLoop fuel l) := by
  intro fuel
  induction fuel with
  | zero => intro l h; exact h
  | succ fuel ih =>
    intro l h
    rw [shuffleLoop]
    by_cases hc : containsSub l undefSentinelStr = true
    · rw [if_pos hc]
      exact ih _ (replaceStrOnce_onlyws l h)
    · rw [if_neg hc]
      exact h

theorem getD_middle (u m v : List Char) (j : Nat) (d : Char)
    (h : j < m.length) :
    (u ++ m ++ v).getD (u.length + j) d = m.getD j d := by
  rw [List.append_assoc]
  rw [List.getD_append_right _ _ _ _ (by omega)]
  rw [show u.length + j - u.length = j by omega]
  exact List.getD_append _ _ _ _ h

theorem replaceStrOnce_preserves_disjoint (l pat new other : List Char)
    (hp : pat ≠ []) (ho : other ≠ [])
    (hdisj : ∀ j, j < other.length → ∀ k, k < pat.length →
      other.getD j 'Q' ≠ pat.getD k 'Q')
    (hother : containsSub l other = true) :
    containsSub (replaceStrOnce l pat new) other = true := by
  rw [replaceStrOnce]
  cases hf : findSub pat l with
  | none => exact hother
  | some i =>
    dsimp only
    obtain ⟨u, v, huv⟩ := (containsSub_iff l other).mp hother
    obtain ⟨hle, heq⟩ := findSub_some pat l i hf
    have hpl : 0 < pat.length := List.length_pos.mpr hp
    have hol : 0 < other.length := List.length_pos.mpr ho
    have hul : l.length = u.length + other.length + v.length := by
      rw [huv]
      simp
      omega
    have hcases : i + pat.length ≤ u.length ∨ u.length + other.length ≤ i := by
      by_contra hcon
      push_neg at hcon
      obtain ⟨h1, h2⟩ := hcon
      have ht1 : max i u.length - u.length < other.length := by omega
      have ht2 : max i u.length - i < pat.length := by omega
      have hc1 : l.getD (max i u.length) 'Q' =
          other.getD (max i u.length - u.length) 'Q' := by
        have hm := getD_middle u other v (max i u.length - u.length) 'Q' ht1
        rw [show u.length + (max i u.length - u.length) = max i u.length by
          omega] at hm
        rw [huv]
        exact hm
      have hc2 : l.getD (max i u.length) 'Q' =
          pat.getD (max i u.length - i) 'Q' := by
        have hm := getD_middle (l.take i) pat (l.drop (i + pat.length))
          (max i u.length - i) 'Q' ht2
        rw [List.length_take] at hm
        rw [show min i l.length + (max i u.length - i) = max i u.length by
          omega] at hm
        conv_lhs => rw [heq]
        exact hm
      exact hdisj _ ht1 _ ht2 (hc1.symm.trans hc2)
    rcases hcases with hA | hB
    · apply containsSub_of_parts _ other
        (u.take i ++ new ++ u.drop (i + pat.length)) v
      have htk : l.take i = u.take i := by
        rw [huv, List.append_assoc, List.take_append_of_le_length (by omega)]
      have hdr : l.drop (i + pat.length) = u.drop (i + pat.length) ++ (other ++ v) := by
        rw [huv, List.append_assoc, List.drop_append_of_le_length (by omega)]
      rw [htk, hdr]
      simp [List.append_assoc]
    · apply containsSub_of_parts _ other u
        (v.take (i - (u.length + other.length)) ++ new ++ l.drop (i + pat.length))
      have htk : l.take i = (u ++ other) ++ v.take (i - (u.length + other.length)) := by
        rw [huv, List.take_append_eq_append_take,
          List.take_of_length_le (by simp; omega)]
        rw [show i - (u ++ other).length = i - (u.length + other.length) by
          simp]
      rw [htk]
      simp [List.append_assoc]

theorem shuffleLoop_preserves_opvs : ∀ (fuel : Nat) (l : List Char),
    containsSub l opVectorShuffleStr = true →
    containsSub (shuffleLoop fuel l) opVectorShuffleStr = true := by
  intro fuel
  induction fuel with
  | zero => intro l h; exact h
  | succ fuel ih =>
    intro l h
    rw [shuffleLoop]
    by_cases hc : containsSub l undefSentinelStr = true
    · rw [if_pos hc]
      refine ih _ (replaceStrOnce_preserves_disjoint l _ _ _
        (by decide) (by decide) ?_ h)
      decide
    · rw [if_neg hc]
      exact h

theorem head_dropWhile (q : Char → Bool) : ∀ (l : List Char) (c : Char)
    (cs : List Char), l.dropWhile q = c :: cs → q c = false := by
  intro l
  induction l with
  | nil =>
    intro c cs h
    exact absurd h (by simp)
  | cons x xs ih =>
    intro c cs h
    rw [List.dropWhile_cons] at h
    by_cases hx : q x = true
    · rw [if_pos hx] at h
      exact ih c cs h
    · rw [if_neg hx] at h
      cases h
      simpa using hx

theorem dropWhile_decomp (q : Char → Bool) (l : List Char) :
    ∃ lead, l = lead ++ l.dropWhile q ∧ ∀ c ∈ lead, q c = true :=
  ⟨l.takeWhile q, (List.takeWhile_append_dropWhile q l).symm,
   fun c hc => List.mem_takeWhile_imp hc⟩

theorem dropWhile_eq_trim_append (l : List Char) :
    ∃ trail, l.dropWhile isCWS = trimWS l ++ trail ∧
      ∀ c ∈ trail, isCWS c = true := by
  obtain ⟨lead2, h2, hlead2⟩ := dropWhile_decomp isCWS (l.dropWhile isCWS).reverse
  refine ⟨lead2.reverse, ?_, fun c hc => hlead2 c (List.mem_reverse.mp hc)⟩
  have hm := congrArg List.reverse h2
  rw [List.reverse_reverse, List.reverse_append] at hm
  rw [hm, trimWS]

theorem trimWS_decomp (l : List Char) :
    ∃ lead trail, l = lead ++ trimWS l ++ trail ∧
      (∀ c ∈ lead, isCWS c = true) ∧ (∀ c ∈ trail, isCWS c = true) := by
  obtain ⟨lead, h1, hlead⟩ := dropWhile_decomp isCWS l
  obtain ⟨trail, h2, htrail⟩ := dropWhile_eq_trim_append l
  refine ⟨lead, trail, ?_, hlead, htrail⟩
  conv_lhs => rw [h1, h2]
  rw [List.append_assoc]

theorem trimWS_head (l : List Char) (c : Char) (cs : List Char)
    (h : trimWS l = c :: cs) : isCWS c = false := by
  obtain ⟨trail, h2, -⟩ := dropWhile_eq_trim_append l
  rw [h, List.cons_append] at h2
  exact head_dropWhile isCWS l c _ h2

theorem trimWS_last (l : List Char) (h : trimWS l ≠ []) :
    ∃ d, (trimWS l).getLast? = some d ∧ isCWS d = false := by
  rw [trimWS] at h ⊢
  rw [List.getLast?_reverse]
  cases hh : (l.dropWhile isCWS).reverse.dropWhile isCWS with
  | nil =>
    rw [hh] at h
    simp at h
  | cons d ds =>
    exact ⟨d, rfl, head_dropWhile isCWS _ d ds hh⟩

theorem trimWS_append_space (R : List Char) (c : Char) (cs : List Char)
    (hR : R = c :: cs) (hc : isCWS c = false)
    (d : Char) (hlast : R.getLast? = some d) (hd : isCWS d = false) :
    trimWS (R ++ [' ']) = R := by
  rw [trimWS]
  have h1 : (R ++ [' ']).dropWhile isCWS = R ++ [' '] := by
    rw [hR, List.cons_append, List.dropWhile_cons, if_neg (by simp [hc])]
  rw [h1, List.reverse_append]
  rw [show ([' '] : List Char).reverse = [' '] from rfl, List.singleton_append]
  rw [List.dropWhile_cons, if_pos (by rfl)]
  cases hrev : R.reverse with
  | nil =>
    exact absurd (by simpa using congrArg List.length hrev) (by simp [hR])
  | cons x xs =>
    have hx : x = d := by
      have hh := List.head?_reverse R
      rw [hrev, hlast] at hh
      simpa using hh
    rw [List.dropWhile_cons, if_neg (by simp [hx, hd])]
    rw [← hrev, List.reverse_reverse]

theorem dropWhile_contains (q : Char → Bool) (pat : List Char) (hp : pat ≠ [])
    (hq : ∀ c ∈ pat, q c = false) :
    ∀ l, containsSub l pat = true → containsSub (l.dropWhile q) pat = true := by
  intro l
  induction l with
  | nil =>
    intro h
    rw [containsSub_nil _ hp] at h
    exact absurd h (by simp)
  | cons x xs ih =>
    intro h
    rw [List.dropWhile_cons]
    by_cases hx : q x = true
    · rw [if_pos hx]
      apply ih
      obtain ⟨u, v, huv⟩ := (containsSub_iff _ _).mp h
      cases u with
      | nil =>
        cases pat with
        | nil => exact absurd rfl hp
        | cons p ps =>
          simp only [List.nil_append, List.cons_append, List.cons.injEq] at huv
          have hpx : p = x := huv.1.symm
          have := hq p (by simp)
          rw [hpx, hx] at this
          exact absurd this (by simp)
      | cons y ys =>
        simp only [List.cons_append, List.cons.injEq] at huv
        exact (containsSub_iff _ _).mpr ⟨ys, v, huv.2⟩
    · rw [if_neg hx]
      exact h

theorem containsSub_reverse (l pat : List Char) (h : containsSub l pat = true) :
    containsSub l.reverse pat.reverse = true := by
  obtain ⟨u, v, huv⟩ := (containsSub_iff _ _).mp h
  refine (containsSub_iff _ _).mpr ⟨v.reverse, u.reverse, ?_⟩
  rw [huv]
  simp [List.reverse_append, List.append_assoc]

theorem trimWS_contains (l pat : List Char) (hp : pat ≠ [])
    (hq : ∀ c ∈ pat, isCWS c = false) (h : containsSub l pat = true) :
    containsSub (trimWS l) pat = true := by
  rw [trimWS]
  have h1 := dropWhile_contains isCWS pat hp hq l h
  have h2 := containsSub_reverse _ _ h1
  have h3 := dropWhile_contains isCWS pat.reverse (by simpa using hp)
    (fun c hc => hq c (List.mem_reverse.mp hc)) _ h2
  have h4 := containsSub_reverse _ _ h3
  simpa using h4

/-- C9 (amended): for every line whose whitespace characters are all plain
    spaces, applying FixVectorShuffles's per-line rewrite twice yields the
    same line as applying it once. -/
theorem c9_fix_vector_shuffles_idempotent (l : List Char)
    (hl : ∀ c ∈ l, isCWS c = true → c = ' ') :
    fixVectorShuffleLine (fixVectorShuffleLine l) = fixVectorShuffleLine l := by
  by_cases hvs : containsSub l opVectorShuffleStr = true
  case neg =>
    have h0 : fixVectorShuffleLine l = l := by
      rw [fixVectorShuffleLine, if_neg hvs]
    rw [h0]
    exact h0
  case pos =>
    set r := shuffleLoop (l.length + 1) (l ++ [' ']) with hrdef
    set R := trimWS r with hRdef
    have hfix : fixVectorShuffleLine l = R := by
      rw [fixVectorShuffleLine, if_pos hvs]
    have F1 : containsSub r undefSentinelStr = false := by
      rw [hrdef]
      apply shuffleLoop_no_pat
      simp only [List.length_append, List.length_singleton]
      omega
    have F2 : r.getLast? = some ' ' := by
      rw [hrdef]
      apply shuffleLoop_last
      rw [List.getLast?_append_of_ne_nil _ (by simp)]
      rfl
    have F3 : onlySpaceWS r := by
      rw [hrdef]
      apply shuffleLoop_onlyws
      intro c hc hw
      rcases List.mem_append.mp hc with h | h
      · exact hl c h hw
      · simpa using h
    have F4 : containsSub r opVectorShuffleStr = true := by
      rw [hrdef]
      apply shuffleLoop_preserves_opvs
      obtain ⟨u, v, huv⟩ := (containsSub_iff _ _).mp hvs
      refine (containsSub_iff _ _).mpr ⟨u, v ++ [' '], ?_⟩
      rw [huv]
      simp
    have F5 : containsSub R opVectorShuffleStr = true := by
      rw [hRdef]
      exact trimWS_contains r _ (by decide) (by decide) F4
    have hRne : R ≠ [] := by
      intro h0
      rw [h0, containsSub_nil _ (by decide)] at F5
      exact absurd F5 (by simp)
    obtain ⟨c, cs, hRcons⟩ := List.exists_cons_of_ne_nil hRne
    have hchead : isCWS c = false := by
      apply trimWS_head r c cs
      rw [← hRdef]
      exact hRcons
    obtain ⟨d, hdlast, hdws⟩ := trimWS_last r (by rw [← hRdef]; exact hRne)
    have hdlast' : R.getLast? = some d := by
      rw [hRdef]
      exact hdlast
    obtain ⟨lead, trail, hparts0, hleadws, htrailws⟩ := trimWS_decomp r
    have hparts : r = lead ++ R ++ trail := by
      rw [hRdef]
      exact hparts0
    have F6 : containsSub (R ++ [' ']) undefSentinelStr = false := by
      by_contra hcon
      rw [Bool.not_eq_false] at hcon
      obtain ⟨u, v, huv⟩ := (containsSub_iff _ _).mp hcon
      rcases List.eq_nil_or_concat' v with hv | ⟨v', x, hv⟩
      · rw [hv, List.append_nil] at huv
        have hsplit : undefSentinelStr = " 4294967295".toList ++ [' '] := by
          decide
        rw [hsplit, ← List.append_assoc] at huv
        have hRu : R = u ++ " 4294967295".toList := by
          have := List.append_inj' huv (by simp)
          exact this.1
        have htne : trail ≠ [] := by
          intro ht
          rw [ht, List.append_nil] at hparts
          rw [hparts, List.getLast?_append_of_ne_nil _ hRne, hRu,
            List.getLast?_append_of_ne_nil _ (by decide)] at F2
          exact absurd F2 (by decide)
        obtain ⟨t0, ts, ht⟩ := List.exists_cons_of_ne_nil htne
        have ht0ws : isCWS t0 = true := htrailws t0 (by rw [ht]; simp)
        have ht0mem : t0 ∈ r := by
          rw [hparts, ht]
          simp
        have ht0 : t0 = ' ' := F3 t0 ht0mem ht0ws
        have : containsSub r undefSentinelStr = true := by
          refine (containsSub_iff _ _).mpr ⟨lead ++ u, ts, ?_⟩
          rw [hparts, ht, ht0, hRu, hsplit]
          simp [List.append_assoc]
        rw [this] at F1
        exact absurd F1 (by simp)
      · rw [hv, ← List.append_assoc] at huv
        have hRu : R = u ++ undefSentinelStr ++ v' := by
          have := List.append_inj' huv (by simp)
          exact this.1
        have : containsSub r undefSentinelStr = true := by
          refine (containsSub_iff _ _).mpr ⟨lead ++ u, v' ++ trail, ?_⟩
          rw [hparts, hRu]
          simp [List.append_assoc]
        rw [this] at F1
        exact absurd F1 (by simp)
    have F7 : shuffleLoop (R.length + 1) (R ++ [' ']) = R ++ [' '] :=
      shuffleLoop_of_not _ _ F6
    have F8 : trimWS (R ++ [' ']) = R :=
      trimWS_append_space R c cs hRcons hchead d hdlast' hdws
    have hfix2 : fixVectorShuffleLine R = R := by
      rw [fixVectorShuffleLine, if_pos F5, F7, F8]
    rw [hfix, hfix2]

/-- C9 counterexample: on the line "OpVectorShuffle 4294967295" followed
    by a tab, one application yields "OpVectorShuffle 4294967295" (the tab
    blocks the space-delimited pattern, and trim then removes the tab and
    the pushed space), while a second application yields
    "OpVectorShuffle 0" - the rewrite is not idempotent. -/
theorem c9_fix_vector_shuffles_idempotent_counterexample :
    fixVectorShuffleLine
        (fixVectorShuffleLine "OpVectorShuffle 4294967295\t".toList) ≠
      fixVectorShuffleLine "OpVectorShuffle 4294967295\t".toList ∧
    fixVectorShuffleLine "OpVectorShuffle 4294967295\t".toList =
      "OpVectorShuffle 4294967295".toList ∧
    fixVectorShuffleLine
        (fixVectorShuffleLine "OpVectorShuffle 4294967295\t".toList) =
      "OpVectorShuffle 0".toList := by
  refine ⟨by decide, by decide, by decide⟩

/-- Witness for C9: a space-only OpVectorShuffle line. -/
theorem c9_fix_vector_shuffles_idempotent_witness :
    fixVectorShuffleLine (fixVectorShuffleLine
        "%v = OpVectorShuffle %t %a %b 0 4294967295".toList) =
      fixVectorShuffleLine "%v = OpVectorShuffle %t %a %b 0 4294967295".toList :=
  c9_fix_vector_shuffles_idempotent
    "%v = OpVectorShuffle %t %a %b 0 4294967295".toList (by decide)

/-! ## RSoV linker: fusion of duplicate type and constant definitions
    (frameworks/rs/rsov/compiler/RSSPIRVWriter.cpp, FuseTypesAndConstants,
    lines 465-513, together with the SPIRVLine / Block / LinkerModule
    primitives it uses from frameworks/rs/rsov/compiler/LinkerModule.cpp)

A line is a list of characters and a module is the list of its blocks; a
block carries its lines and whether it is the header block, which is the
only distinction LinkerModule::removeNonCode makes between block kinds.
The two llvm::StringMap states of FuseTypesAndConstants are association
lists whose insert keeps the first binding, as StringMap::insert does. -/

/-- GetFirstId-driven tokenization (LinkerModule.cpp lines 43-64): each
    identifier token starts at the next '%' and extends while isspace is
    false; the search then resumes right after the token. Every step
    consumes at least one character of the remaining suffix, so fuel
    length + 1 never runs out. -/
def idTokensFuel : Nat → List Char → List (List Char)
  | 0, _ => []
  | fuel + 1, l =>
    match strchrIdx l '%' with
    | none => []
    | some p =>
      let tok := (l.drop p).takeWhile (fun c => !isCWS c)
      tok :: idTokensFuel fuel (l.drop (p + tok.length))

/-- SPIRVLine::getIdentifiers with the default StartPos of 0. -/
def getIdentifiers (l : List Char) : List (List Char) :=
  idTokensFuel (l.length + 1) l

/-- SPIRVLine::getLHSIdentifier (LinkerModule.cpp lines 66-76): the first
    identifier of the line, provided the line contains an '='. -/
def getLHSIdentifier (l : List Char) : Option (List Char) :=
  match strchrIdx l '%' with
  | none => none
  | some p =>
    if containsSub l ['='] = true then
      some ((l.drop p).takeWhile (fun c => !isCWS c))
    else none

/-- SPIRVLine::getRHS (LinkerModule.cpp lines 78-84): the trimmed text
    after the first '='. -/
def getRHS (l : List Char) : Option (List Char) :=
  match strchrIdx l '=' with
  | none => none
  | some e => some (trimWS (l.drop (e + 1)))

/-- SPIRVLine::getRHSIdentifiers (LinkerModule.cpp lines 86-95). -/
def getRHSIdentifiers (l : List Char) : List (List Char) :=
  match getRHS l with
  | none => []
  | some r => getIdentifiers r

/-- SPIRVLine::replaceId (LinkerModule.cpp lines 106-120): find the first
    occurrence of orig; if the character right after it exists and is not
    whitespace, retarget to the next occurrence found after that point and
    replace it without any boundary check of its own; otherwise replace the
    first occurrence. -/
def replaceId (l orig new : List Char) : List Char :=
  match findSub orig l with
  | none => l
  | some pos =>
    if pos + orig.length < l.length ∧
        isCWS (l.getD (pos + orig.length) ' ') = false then
      match findSub orig (l.drop (pos + orig.length)) with
      | none => l
      | some p2 =>
        l.take (pos + orig.length + p2) ++ new ++
          l.drop (pos + orig.length + p2 + orig.length)
    else
      l.take pos ++ new ++ l.drop (pos + orig.length)

/-- SPIRVLine::hasCode (LinkerModule.cpp lines 32-40): nonempty after
    trimming and not starting with the comment character. -/
def hasCode (l : List Char) : Bool :=
  match trimWS l with
  | [] => false
  | c :: _ => c != ';'

/-- The line text written by SPIRVLine::markAsEmpty (LinkerModule.cpp
    line 124). -/
def markAsEmptyStr : List Char := "; <<empty>>".toList

/-- A block of the linker module: its lines, and whether it is the header
    block (LinkerModule::removeNonCode only spares header blocks from
    non-code line removal). -/
structure SpvBlock where
  isHeader : Bool
  lines : List (List Char)

/-- llvm::StringMap lookup, first binding wins. -/
def alistLookup : List (List Char × List Char) → List Char → Option (List Char)
  | [], _ => none
  | (k', v) :: t, k => if k' = k then some v else alistLookup t k

/-- llvm::StringMap::insert: a present key is left untouched. -/
def alistInsert (m : List (List Char × List Char)) (k v : List Char) :
    List (List Char × List Char) :=
  match alistLookup m k with
  | some _ => m
  | none => m ++ [(k, v)]

def opTypeStr : List Char := "OpType".toList
def opConstantStr : List Char := "OpConstant".toList

/-- The two maps FuseTypesAndConstants threads through the module. -/
structure FuseState where
  typesAndConstDefs : List (List Char × List Char)
  nameReps : List (List Char × List Char)

/-- One iteration of the FuseTypesAndConstants loop (RSSPIRVWriter.cpp
    lines 469-508). Lines without '=' are skipped; each right-hand-side
    identifier of the original line with a pending substitution is run
    through replaceId; if the possibly rewritten line mentions OpType or
    OpConstant, a duplicate right-hand side blanks the line and records a
    substitution, a fresh right-hand side is recorded as canonical. The
    source asserts that such a line has both a left-hand identifier and a
    right-hand side, so the final fallback arm is its unreachable path. -/
def fuseLine (st : FuseState) (l : List Char) : List Char × FuseState :=
  if containsSub l ['='] = true then
    let l1 := (getRHSIdentifiers l).foldl (fun acc i =>
      match alistLookup st.nameReps i with
      | none => acc
      | some rep => replaceId acc i rep) l
    if (containsSub l1 opTypeStr || containsSub l1 opConstantStr) = true then
      match getLHSIdentifier l1, getRHS l1 with
      | some lhs, some rhs =>
        match alistLookup st.typesAndConstDefs rhs with
        | some canon =>
          (markAsEmptyStr,
           { typesAndConstDefs := st.typesAndConstDefs,
             nameReps := alistInsert st.nameReps lhs canon })
        | none =>
          (l1,
           { typesAndConstDefs := alistInsert st.typesAndConstDefs rhs lhs,
             nameReps := st.nameReps })
      | _, _ => (l1, st)
    else (l1, st)
  else (l, st)

def fuseLines (st : FuseState) : List (List Char) → List (List Char) × FuseState
  | [] => ([], st)
  | l :: ls =>
    let p := fuseLine st l
    let q := fuseLines p.2 ls
    (p.1 :: q.1, q.2)

/-- LM.lines() enumerates the lines of all blocks in block order, so the
    loop of FuseTypesAndConstants is the stateful pass over the blocks. -/
def fuseBlocks (st : FuseState) : List SpvBlock → List SpvBlock × FuseState
  | [] => ([], st)
  | b :: bs =>
    let p := fuseLines st b.lines
    let q := fuseBlocks p.2 bs
    ({ isHeader := b.isHeader, lines := p.1 } :: q.1, q.2)

/-- LinkerModule::removeNonCode (LinkerModule.cpp lines 432-438): remove
    the non-code lines of every non-header block, then remove every block
    without a code line. -/
def removeNonCode (blocks : List SpvBlock) : List SpvBlock :=
  (blocks.map (fun b =>
      if b.isHeader then b
      else { isHeader := b.isHeader, lines := b.lines.filter hasCode })).filter
    (fun b => b.lines.any hasCode)

/-- FuseTypesAndConstants (RSSPIRVWriter.cpp lines 465-513). -/
def FuseTypesAndConstants (blocks : List SpvBlock) : List SpvBlock :=
  removeNonCode (fuseBlocks { typesAndConstDefs := [], nameReps := [] } blocks).1

/-- Block::getIdCount (LinkerModule.cpp lines 181-190): how many identifier
    tokens of the block's lines equal id. -/
def getIdCount (b : SpvBlock) (id : List Char) : Nat :=
  (b.lines.map (fun l => (getIdentifiers l).count id)).sum

/-- References to an identifier remaining anywhere in the module. -/
def moduleIdCount (blocks : List SpvBlock) (id : List Char) : Nat :=
  (blocks.map (fun b => getIdCount b id)).sum

/-- A module with two identical type declarations and a later function line
    that references the duplicated identifier without being an assignment:
    the claim requires fusion to leave zero references to %b. -/
def c6Module : List SpvBlock :=
  [{ isHeader := false,
     lines := ["%a = OpTypeInt 32 0".toList, "%b = OpTypeInt 32 0".toList] },
   { isHeader := false,
     lines := ["%f = OpFunction %v None %fn".toList,
               "OpStore %p %b".toList,
               "OpReturn".toList,
               "OpFunctionEnd".toList] }]

theorem exists_eq_cons_of_head? {a : List Char} {c : Char}
    (h : a.head? = some c) : ∃ t, a = c :: t := by
  cases a with
  | nil => exact absurd h (by simp)
  | cons y ys =>
    simp only [List.head?_cons, Option.some.injEq] at h
    exact ⟨ys, by rw [h]⟩

theorem containsSub_append_sep (pat u v : List Char) (sep : Char)
    (hsep : ∀ c ∈ pat, c ≠ sep) (h : containsSub (u ++ sep :: v) pat = true) :
    containsSub u pat = true ∨ containsSub v pat = true := by
  obtain ⟨s, t, hst⟩ := (containsSub_iff _ _).mp h
  rcases le_or_lt (s.length + pat.length) u.length with hle | hgt
  · left
    have hsu : s.length ≤ u.length := by omega
    have htake := congrArg (List.take u.length) hst
    rw [List.take_append_of_le_length (by simp), List.take_of_length_le (by simp)] at htake
    rw [List.append_assoc, List.take_append_eq_append_take,
      List.take_of_length_le hsu, List.take_append_eq_append_take,
      List.take_of_length_le (by omega)] at htake
    exact containsSub_of_parts u pat s _ (by rw [htake, List.append_assoc])
  · rcases le_or_lt s.length u.length with hs | hs
    · exfalso
      have hj : u.length - s.length < pat.length := by omega
      have h1 : (u ++ sep :: v).getD u.length 'Q' = sep := by
        have := getD_middle u [sep] v 0 'Q' (by simp)
        simpa using this
      have h2 : (s ++ pat ++ t).getD (s.length + (u.length - s.length)) 'Q' =
          pat.getD (u.length - s.length) 'Q' := getD_middle s pat t _ 'Q' hj
      rw [show s.length + (u.length - s.length) = u.length by omega] at h2
      rw [hst, h2] at h1
      have hmem : pat.getD (u.length - s.length) 'Q' ∈ pat := by
        rw [List.getD_eq_getElem _ _ hj]
        exact List.getElem_mem hj
      exact hsep _ hmem h1
    · right
      have hdropL : (u ++ sep :: v).drop (u.length + 1) = v := by
        rw [List.drop_append 1]
        rfl
      have hdropR : (s ++ pat ++ t).drop (u.length + 1) =
          s.drop (u.length + 1) ++ pat ++ t := by
        rw [List.append_assoc, List.drop_append_of_le_length (by omega),
          List.append_assoc]
      rw [hst, hdropR] at hdropL
      exact containsSub_of_parts v pat _ t hdropL.symm

theorem containsSub_append_sep_false (pat u v : List Char) (sep : Char)
    (hsep : ∀ c ∈ pat, c ≠ sep) (hu : containsSub u pat = false)
    (hv : containsSub v pat = false) :
    containsSub (u ++ sep :: v) pat = false := by
  cases hc : containsSub (u ++ sep :: v) pat with
  | false => rfl
  | true =>
    rcases containsSub_append_sep pat u v sep hsep hc with h | h
    · rw [hu] at h; exact absurd h (by simp)
    · rw [hv] at h; exact absurd h (by simp)

theorem head_mem_of_containsSub (l : List Char) (p : Char) (ps : List Char)
    (h : containsSub l (p :: ps) = true) : p ∈ l := by
  obtain ⟨u, v, huv⟩ := (containsSub_iff _ _).mp h
  rw [huv]
  simp

theorem containsSub_false_of_head_not_mem (l : List Char) (p : Char)
    (ps : List Char) (h : p ∉ l) : containsSub l (p :: ps) = false := by
  cases hc : containsSub l (p :: ps) with
  | false => rfl
  | true => exact absurd (head_mem_of_containsSub l p ps hc) h

theorem containsSub_false_of_no_marker (l b : List Char)
    (hb0 : b.head? = some '%') (h : '%' ∉ l) : containsSub l b = false := by
  obtain ⟨t, rfl⟩ := exists_eq_cons_of_head? hb0
  exact containsSub_false_of_head_not_mem l '%' t h

theorem takeWhile_all (q : Char → Bool) (l : List Char)
    (h : ∀ c ∈ l, q c = true) : l.takeWhile q = l := by
  induction l with
  | nil => rfl
  | cons c t ih =>
    rw [List.takeWhile_cons, if_pos (h c (by simp))]
    rw [ih (fun x hx => h x (by simp [hx]))]

theorem takeWhile_append_sep (q : Char → Bool) (u : List Char) (sep : Char)
    (v : List Char) (hu : ∀ c ∈ u, q c = true) (hs : q sep = false) :
    (u ++ sep :: v).takeWhile q = u := by
  induction u with
  | nil => simp [List.takeWhile_cons, hs]
  | cons c t ih =>
    rw [List.cons_append, List.takeWhile_cons, if_pos (hu c (by simp))]
    rw [ih (fun x hx => hu x (by simp [hx]))]

theorem idTokensFuel_nil (fuel : Nat) : idTokensFuel fuel [] = [] := by
  cases fuel with
  | zero => rfl
  | succ f => rfl

theorem idTokensFuel_sub : ∀ (fuel : Nat) (l t : List Char),
    t ∈ idTokensFuel fuel l → ∃ u v, l = u ++ t ++ v := by
  intro fuel
  induction fuel with
  | zero =>
    intro l t h
    exact absurd h (by simp [idTokensFuel])
  | succ fuel ih =>
    intro l t h
    rw [idTokensFuel] at h
    cases hs : strchrIdx l '%' with
    | none =>
      rw [hs] at h
      exact absurd h (by simp)
    | some p =>
      rw [hs] at h
      dsimp only at h
      rcases List.mem_cons.mp h with rfl | hmem
      · refine ⟨l.take p, (l.drop p).dropWhile (fun c => !isCWS c), ?_⟩
        conv_lhs => rw [← List.take_append_drop p l]
        rw [List.append_assoc]
        congr 1
        exact (List.takeWhile_append_dropWhile _ _).symm
      · obtain ⟨u, v, huv⟩ := ih _ t hmem
        refine ⟨l.take (p + ((l.drop p).takeWhile (fun c => !isCWS c)).length) ++ u,
          v, ?_⟩
        conv_lhs => rw [← List.take_append_drop
          (p + ((l.drop p).takeWhile (fun c => !isCWS c)).length) l, huv]
        simp [List.append_assoc]

theorem mem_getIdentifiers_sub (l t : List Char) (h : t ∈ getIdentifiers l) :
    ∃ u v, l = u ++ t ++ v :=
  idTokensFuel_sub _ l t h

theorem getIdentifiers_count_zero (l id : List Char)
    (h : containsSub l id = false) : (getIdentifiers l).count id = 0 := by
  rw [List.count_eq_zero]
  intro hmem
  obtain ⟨u, v, huv⟩ := mem_getIdentifiers_sub l id hmem
  have := containsSub_of_parts l id u v huv
  rw [h] at this
  exact absurd this (by simp)

theorem getIdentifiers_op_id (op b : List Char) (hop : '%' ∉ op)
    (hb0 : b.head? = some '%') (hb : ∀ c ∈ b, isCWS c = false) :
    getIdentifiers (op ++ ' ' :: b) = [b] := by
  obtain ⟨btl, rfl⟩ := exists_eq_cons_of_head? hb0
  rw [getIdentifiers, idTokensFuel]
  have hs : strchrIdx (op ++ ' ' :: '%' :: btl) '%' = some (op.length + 1) := by
    have hne : ∀ x ∈ op ++ [' '], x ≠ '%' := by
      intro x hx
      rcases List.mem_append.mp hx with h | h
      · intro hx'; exact hop (hx' ▸ h)
      · simp only [List.mem_singleton] at h
        rw [h]; decide
    have := strchrIdx_exact (op ++ [' ']) '%' btl hne
    rw [show (op ++ [' ']) ++ '%' :: btl = op ++ ' ' :: '%' :: btl by simp] at this
    simpa using this
  rw [hs]
  dsimp only
  have hdrop : (op ++ ' ' :: '%' :: btl).drop (op.length + 1) = '%' :: btl := by
    rw [show op ++ ' ' :: '%' :: btl = (op ++ [' ']) ++ '%' :: btl by simp,
      show op.length + 1 = (op ++ [' ']).length by simp, List.drop_left]
  rw [hdrop]
  have htok : ('%' :: btl).takeWhile (fun c => !isCWS c) = '%' :: btl :=
    takeWhile_all _ _ (fun c hc => by simp [hb c hc])
  rw [htok]
  have hdrop2 : (op ++ ' ' :: '%' :: btl).drop (op.length + 1 + ('%' :: btl).length)
      = [] := by
    apply List.drop_eq_nil_of_le
    simp only [List.length_append, List.length_cons]
    omega
  rw [hdrop2, idTokensFuel_nil]

theorem trimWS_cons_space (m : List Char) : trimWS (' ' :: m) = trimWS m := by
  rw [trimWS, trimWS, List.dropWhile_cons, if_pos (by decide : isCWS ' ' = true)]

theorem getRHS_assign (x m : List Char) (hx : ∀ c ∈ x, c ≠ '=') :
    getRHS (x ++ ' ' :: '=' :: ' ' :: m) = some (trimWS m) := by
  rw [getRHS]
  have hs : strchrIdx (x ++ ' ' :: '=' :: ' ' :: m) '=' = some (x.length + 1) := by
    have hne : ∀ c ∈ x ++ [' '], c ≠ '=' := by
      intro c hc
      rcases List.mem_append.mp hc with h | h
      · exact hx c h
      · simp only [List.mem_singleton] at h
        rw [h]; decide
    have := strchrIdx_exact (x ++ [' ']) '=' (' ' :: m) hne
    rw [show (x ++ [' ']) ++ '=' :: ' ' :: m = x ++ ' ' :: '=' :: ' ' :: m by simp]
      at this
    simpa using this
  rw [hs]
  dsimp only
  rw [show x ++ ' ' :: '=' :: ' ' :: m = (x ++ [' ', '=']) ++ ' ' :: m by simp,
    show x.length + 1 + 1 = (x ++ [' ', '=']).length by simp, List.drop_left]
  rw [trimWS_cons_space]

theorem getLHSIdentifier_assign (a rest : List Char)
    (ha0 : a.head? = some '%') (ha : ∀ c ∈ a, isCWS c = false)
    (hc : containsSub (a ++ ' ' :: rest) ['='] = true) :
    getLHSIdentifier (a ++ ' ' :: rest) = some a := by
  rw [getLHSIdentifier]
  have hs : strchrIdx (a ++ ' ' :: rest) '%' = some 0 := by
    obtain ⟨atl, rfl⟩ := exists_eq_cons_of_head? ha0
    rw [List.cons_append, strchrIdx, if_pos rfl]
  rw [hs]
  dsimp only
  rw [if_pos hc, List.drop_zero]
  rw [takeWhile_append_sep _ a ' ' rest (fun c hcm => by simp [ha c hcm])
    (by decide)]

theorem mem_of_getLast?_eq {l : List Char} {d : Char}
    (h : l.getLast? = some d) : d ∈ l := by
  rw [← List.head?_reverse] at h
  have : d ∈ l.reverse := by
    cases hr : l.reverse with
    | nil => rw [hr] at h; exact absurd h (by simp)
    | cons e es =>
      rw [hr] at h
      simp only [List.head?_cons, Option.some.injEq] at h
      rw [h]
      exact List.mem_cons_self d es
  exact List.mem_reverse.mp this

theorem trimWS_eq_self (c : Char) (cs : List Char) (hc : isCWS c = false)
    (hlast : ∀ d, (c :: cs).getLast? = some d → isCWS d = false) :
    trimWS (c :: cs) = c :: cs := by
  rw [trimWS, List.dropWhile_cons, if_neg (by simp [hc])]
  cases hh : (c :: cs).reverse with
  | nil => exact absurd hh (by simp)
  | cons e es =>
    have he : (c :: cs).getLast? = some e := by
      rw [← List.head?_reverse, hh]
      rfl
    rw [List.dropWhile_cons, if_neg (by simp [hlast e he]), ← hh,
      List.reverse_reverse]

theorem hasCode_eq_true (l : List Char) (c : Char) (cs : List Char)
    (h : trimWS l = c :: cs) (hc : c ≠ ';') : hasCode l = true := by
  rw [hasCode, h]
  simp [hc]

theorem hasCode_line (a tail : List Char) (ha0 : a.head? = some '%')
    (hlast : ∀ d, (a ++ tail).getLast? = some d → isCWS d = false) :
    hasCode (a ++ tail) = true := by
  obtain ⟨atl, rfl⟩ := exists_eq_cons_of_head? ha0
  rw [List.cons_append]
  have ht := trimWS_eq_self '%' (atl ++ tail) (by decide)
    (fun d hd => hlast d (by rw [List.cons_append]; exact hd))
  exact hasCode_eq_true _ '%' (atl ++ tail) ht (by decide)

theorem getD_dropChar (l : List Char) (m n : Nat) (d : Char) :
    (l.drop m).getD n d = l.getD (m + n) d := by
  simp [List.getD, List.getElem?_drop]

theorem findSub_append_end (pat : List Char) (hp : pat ≠ []) :
    ∀ u : List Char,
      (∀ j, j < u.length → pat.isPrefixOf ((u ++ pat).drop j) = false) →
      findSub pat (u ++ pat) = some u.length := by
  intro u
  induction u with
  | nil =>
    intro h
    obtain ⟨p, ps, rfl⟩ := List.exists_cons_of_ne_nil hp
    rw [List.nil_append, findSub,
      if_pos ((isPrefixOf_iff _ _).mpr ⟨[], by simp⟩)]
    rfl
  | cons y ys ih =>
    intro h
    rw [List.cons_append, findSub]
    rw [if_neg (by
      have := h 0 (by simp)
      rw [List.drop_zero, List.cons_append] at this
      simp [this])]
    rw [ih (fun j hj => by
      have := h (j + 1) (by simp only [List.length_cons]; omega)
      rw [List.cons_append] at this
      exact this)]
    simp

theorem findSub_sep_end (u0 pat : List Char) (hp : pat ≠ [])
    (hsp : ∀ c ∈ pat, c ≠ ' ')
    (hns : containsSub (u0 ++ [' ']) pat = false) :
    findSub pat ((u0 ++ [' ']) ++ pat) = some (u0.length + 1) := by
  have hmain := findSub_append_end pat hp (u0 ++ [' ']) ?_
  · simpa using hmain
  intro j hj
  simp only [List.length_append, List.length_cons, List.length_nil] at hj
  cases hpre : pat.isPrefixOf (((u0 ++ [' ']) ++ pat).drop j) with
  | false => rfl
  | true =>
    exfalso
    obtain ⟨w, hw⟩ := (isPrefixOf_iff _ _).mp hpre
    rcases le_or_lt (j + pat.length) (u0.length + 1) with hle | hgt
    · have hju : j ≤ (u0 ++ [' ']).length := by simp; omega
      rw [List.drop_append_of_le_length hju] at hw
      have hplen : pat.length ≤ ((u0 ++ [' ']).drop j).length := by
        simp only [List.length_drop, List.length_append, List.length_cons,
          List.length_nil]
        omega
      have htake := congrArg (List.take pat.length) hw
      rw [List.take_append_of_le_length hplen, List.take_left] at htake
      have hcon : containsSub (u0 ++ [' ']) pat = true := by
        apply containsSub_of_parts _ _ ((u0 ++ [' ']).take j)
          (((u0 ++ [' ']).drop j).drop pat.length)
        conv_lhs => rw [← List.take_append_drop j (u0 ++ [' '])]
        rw [List.append_assoc]
        congr 1
        conv_lhs => rw [← List.take_append_drop pat.length ((u0 ++ [' ']).drop j)]
        rw [htake]
      rw [hns] at hcon
      exact absurd hcon (by simp)
    · have hj2 : u0.length - j < pat.length := by omega
      have h1 : ((u0 ++ [' ']) ++ pat).getD u0.length 'Q' = ' ' := by
        have := getD_middle u0 [' '] pat 0 'Q' (by simp)
        simpa using this
      have h2 := congrArg (fun s => s.getD (u0.length - j) 'Q') hw
      dsimp only at h2
      rw [getD_dropChar, show j + (u0.length - j) = u0.length by omega] at h2
      rw [h1, List.getD_append _ _ _ _ hj2] at h2
      have hmem : pat.getD (u0.length - j) 'Q' ∈ pat := by
        rw [List.getD_eq_getElem _ _ hj2]
        exact List.getElem_mem hj2
      exact hsp _ hmem h2.symm

theorem replaceId_end (u0 pat new : List Char) (hp : pat ≠ [])
    (hsp : ∀ c ∈ pat, c ≠ ' ')
    (hns : containsSub (u0 ++ [' ']) pat = false) :
    replaceId ((u0 ++ [' ']) ++ pat) pat new = (u0 ++ [' ']) ++ new := by
  rw [replaceId, findSub_sep_end u0 pat hp hsp hns]
  dsimp only
  have hlen : ((u0 ++ [' ']) ++ pat).length = u0.length + 1 + pat.length := by
    simp only [List.length_append, List.length_cons, List.length_nil]
  rw [if_neg (by
    rintro ⟨h1, -⟩
    rw [hlen] at h1
    omega)]
  have htake : ((u0 ++ [' ']) ++ pat).take (u0.length + 1) = u0 ++ [' '] := by
    rw [show u0.length + 1 = (u0 ++ [' ']).length by simp]
    exact List.take_left _ _
  have hdropn : ((u0 ++ [' ']) ++ pat).drop (u0.length + 1 + pat.length) = [] :=
    List.drop_eq_nil_of_le (le_of_eq hlen)
  rw [htake, hdropn]
  simp

theorem containsSub_eq_line_false (x m pat : List Char) (hp : pat ≠ [])
    (hsp : ∀ c ∈ pat, c ≠ ' ' ∧ c ≠ '=')
    (h1 : containsSub x pat = false) (h2 : containsSub m pat = false) :
    containsSub (x ++ ' ' :: '=' :: ' ' :: m) pat = false := by
  apply containsSub_append_sep_false pat x ('=' :: ' ' :: m) ' '
    (fun c hc => (hsp c hc).1) h1
  have hv : containsSub (' ' :: m) pat = false := by
    have := containsSub_append_sep_false pat [] m ' '
      (fun c hc => (hsp c hc).1) (containsSub_nil pat hp) h2
    simpa using this
  have := containsSub_append_sep_false pat [] (' ' :: m) '='
    (fun c hc => (hsp c hc).2) (containsSub_nil pat hp) hv
  simpa using this

theorem containsSub_sp_append_false (op w pat : List Char) (hp : pat ≠ [])
    (hsp : ∀ c ∈ pat, c ≠ ' ')
    (h1 : containsSub op pat = false) (h2 : containsSub w pat = false) :
    containsSub (op ++ ' ' :: w) pat = false :=
  containsSub_append_sep_false pat op w ' ' hsp h1 h2

theorem foldl_replace_nilreps (ids : List (List Char)) (acc : List Char) :
    ids.foldl (fun acc i =>
      match alistLookup [] i with
      | none => acc
      | some rep => replaceId acc i rep) acc = acc := by
  induction ids generalizing acc with
  | nil => rfl
  | cons i is ih => exact ih acc

theorem fuseLine_decl_first (a rhs : List Char)
    (ha0 : a.head? = some '%')
    (ha : ∀ c ∈ a, isCWS c = false ∧ c ≠ '=')
    (hrhs1 : trimWS rhs = rhs) (hrhs2 : ∀ c ∈ rhs, c ≠ '=')
    (hrhs3 : containsSub rhs opTypeStr = true ∨
      containsSub rhs opConstantStr = true) :
    fuseLine { typesAndConstDefs := [], nameReps := [] }
        (a ++ ' ' :: '=' :: ' ' :: rhs) =
      ((a ++ ' ' :: '=' :: ' ' :: rhs),
       { typesAndConstDefs := [(rhs, a)], nameReps := [] }) := by
  have hceq : containsSub (a ++ ' ' :: '=' :: ' ' :: rhs) ['='] = true :=
    containsSub_of_parts _ _ (a ++ [' ']) (' ' :: rhs) (by simp)
  rw [fuseLine, if_pos hceq]
  dsimp only
  rw [foldl_replace_nilreps]
  have hOp : (containsSub (a ++ ' ' :: '=' :: ' ' :: rhs) opTypeStr ||
      containsSub (a ++ ' ' :: '=' :: ' ' :: rhs) opConstantStr) = true := by
    rcases hrhs3 with h | h
    · obtain ⟨u, v, huv⟩ := (containsSub_iff _ _).mp h
      have := containsSub_of_parts (a ++ ' ' :: '=' :: ' ' :: rhs)
        opTypeStr (a ++ ' ' :: '=' :: ' ' :: u) v (by rw [huv]; simp)
      simp [this]
    · obtain ⟨u, v, huv⟩ := (containsSub_iff _ _).mp h
      have := containsSub_of_parts (a ++ ' ' :: '=' :: ' ' :: rhs)
        opConstantStr (a ++ ' ' :: '=' :: ' ' :: u) v (by rw [huv]; simp)
      simp [this]
  rw [if_pos hOp]
  rw [getLHSIdentifier_assign a ('=' :: ' ' :: rhs) ha0
    (fun c hc => (ha c hc).1) hceq]
  rw [getRHS_assign a rhs (fun c hc => (ha c hc).2), hrhs1]
  dsimp only [alistLookup]
  rw [show alistInsert [] rhs a = [(rhs, a)] by simp [alistInsert, alistLookup]]

theorem fuseLine_decl_dup (a b rhs : List Char)
    (hb0 : b.head? = some '%')
    (hb : ∀ c ∈ b, isCWS c = false ∧ c ≠ '=')
    (hrhs1 : trimWS rhs = rhs) (hrhs2 : ∀ c ∈ rhs, c ≠ '=')
    (hrhs3 : containsSub rhs opTypeStr = true ∨
      containsSub rhs opConstantStr = true) :
    fuseLine { typesAndConstDefs := [(rhs, a)], nameReps := [] }
        (b ++ ' ' :: '=' :: ' ' :: rhs) =
      (markAsEmptyStr,
       { typesAndConstDefs := [(rhs, a)], nameReps := [(b, a)] }) := by
  have hceq : containsSub (b ++ ' ' :: '=' :: ' ' :: rhs) ['='] = true :=
    containsSub_of_parts _ _ (b ++ [' ']) (' ' :: rhs) (by simp)
  rw [fuseLine, if_pos hceq]
  dsimp only
  rw [foldl_replace_nilreps]
  have hOp : (containsSub (b ++ ' ' :: '=' :: ' ' :: rhs) opTypeStr ||
      containsSub (b ++ ' ' :: '=' :: ' ' :: rhs) opConstantStr) = true := by
    rcases hrhs3 with h | h
    · obtain ⟨u, v, huv⟩ := (containsSub_iff _ _).mp h
      have := containsSub_of_parts (b ++ ' ' :: '=' :: ' ' :: rhs)
        opTypeStr (b ++ ' ' :: '=' :: ' ' :: u) v (by rw [huv]; simp)
      simp [this]
    · obtain ⟨u, v, huv⟩ := (containsSub_iff _ _).mp h
      have := containsSub_of_parts (b ++ ' ' :: '=' :: ' ' :: rhs)
        opConstantStr (b ++ ' ' :: '=' :: ' ' :: u) v (by rw [huv]; simp)
      simp [this]
  rw [if_pos hOp]
  rw [getLHSIdentifier_assign b ('=' :: ' ' :: rhs) hb0
    (fun c hc => (hb c hc).1) hceq]
  rw [getRHS_assign b rhs (fun c hc => (hb c hc).2), hrhs1]
  dsimp only
  rw [show alistLookup [(rhs, a)] rhs = some a by simp [alistLookup]]
  dsimp only
  rw [show alistInsert [] b a = [(b, a)] by simp [alistInsert, alistLookup]]

/-- The shape and side conditions of one later reference line
    x = op ... %b: the referencing identifier and the opcode word contain
    no whitespace, no '=', no occurrence of the discarded identifier, and
    no OpType / OpConstant marker, and the opcode word contains no '%'. -/
abbrev C6RefOk (b : List Char) (r : List Char × List Char) : Prop :=
  r.1.head? = some '%' ∧ (∀ c ∈ r.1, isCWS c = false ∧ c ≠ '=') ∧
  containsSub r.1 b = false ∧
  containsSub r.1 opTypeStr = false ∧ containsSub r.1 opConstantStr = false ∧
  r.2 ≠ [] ∧ (∀ c ∈ r.2, isCWS c = false ∧ c ≠ '=' ∧ c ≠ '%') ∧
  containsSub r.2 opTypeStr = false ∧ containsSub r.2 opConstantStr = false

theorem fuseLine_ref (defs : List (List Char × List Char))
    (a b x op : List Char)
    (hb0 : b.head? = some '%')
    (hb : ∀ c ∈ b, isCWS c = false ∧ c ≠ '=')
    (haT : containsSub a opTypeStr = false)
    (haC : containsSub a opConstantStr = false)
    (hok : C6RefOk b (x, op)) :
    fuseLine { typesAndConstDefs := defs, nameReps := [(b, a)] }
        (x ++ ' ' :: '=' :: ' ' :: (op ++ ' ' :: b)) =
      ((x ++ ' ' :: '=' :: ' ' :: (op ++ ' ' :: a)),
       { typesAndConstDefs := defs, nameReps := [(b, a)] }) := by
  obtain ⟨hxh, hx, hxb, hxT, hxC, hop0, hop, hopT, hopC⟩ := hok
  have hbne : b ≠ ([] : List Char) := by
    intro h
    rw [h] at hb0
    exact absurd hb0 (by simp)
  have hbsp : ∀ c ∈ b, c ≠ ' ' := by
    intro c hc hceq
    have := (hb c hc).1
    rw [hceq] at this
    exact absurd this (by decide)
  have hceq : containsSub (x ++ ' ' :: '=' :: ' ' :: (op ++ ' ' :: b))
      ['='] = true :=
    containsSub_of_parts _ _ (x ++ [' ']) (' ' :: (op ++ ' ' :: b)) (by simp)
  rw [fuseLine, if_pos hceq]
  dsimp only
  have hrhsEq : getRHS (x ++ ' ' :: '=' :: ' ' :: (op ++ ' ' :: b)) =
      some (op ++ ' ' :: b) := by
    rw [getRHS_assign x _ (fun c hc => (hx c hc).2)]
    congr 1
    obtain ⟨o, os, rfl⟩ := List.exists_cons_of_ne_nil hop0
    rw [List.cons_append]
    apply trimWS_eq_self o (os ++ ' ' :: b) (hop o (by simp)).1
    intro d hd
    rw [← List.cons_append,
      show (o :: os) ++ ' ' :: b = ((o :: os) ++ [' ']) ++ b by simp,
      List.getLast?_append_of_ne_nil _ hbne] at hd
    exact (hb d (mem_of_getLast?_eq hd)).1
  have hids : getRHSIdentifiers
      (x ++ ' ' :: '=' :: ' ' :: (op ++ ' ' :: b)) = [b] := by
    rw [getRHSIdentifiers, hrhsEq]
    exact getIdentifiers_op_id op b (fun hmem => (hop '%' hmem).2.2 rfl)
      hb0 (fun c hc => (hb c hc).1)
  rw [hids, List.foldl_cons, List.foldl_nil]
  rw [show alistLookup [(b, a)] b = some a by simp [alistLookup]]
  dsimp only
  have hnb : containsSub ((x ++ ' ' :: '=' :: ' ' :: op) ++ [' ']) b = false := by
    rw [show (x ++ ' ' :: '=' :: ' ' :: op) ++ [' '] =
      x ++ ' ' :: '=' :: ' ' :: (op ++ [' ']) by simp]
    apply containsSub_eq_line_false x (op ++ [' ']) b hbne
      (fun c hc => ⟨hbsp c hc, (hb c hc).2⟩) hxb
    rw [show op ++ [' '] = op ++ ' ' :: ([] : List Char) from rfl]
    exact containsSub_sp_append_false op [] b hbne hbsp
      (containsSub_false_of_no_marker op b hb0 (fun hmem => (hop '%' hmem).2.2 rfl))
      (containsSub_nil _ hbne)
  rw [show x ++ ' ' :: '=' :: ' ' :: (op ++ ' ' :: b) =
    ((x ++ ' ' :: '=' :: ' ' :: op) ++ [' ']) ++ b by simp]
  rw [replaceId_end _ _ _ hbne hbsp hnb]
  rw [show ((x ++ ' ' :: '=' :: ' ' :: op) ++ [' ']) ++ a =
    x ++ ' ' :: '=' :: ' ' :: (op ++ ' ' :: a) by simp]
  have hTne : opTypeStr ≠ ([] : List Char) := by decide
  have hCne : opConstantStr ≠ ([] : List Char) := by decide
  have hTsp : ∀ c ∈ opTypeStr, c ≠ ' ' ∧ c ≠ '=' := by decide
  have hCsp : ∀ c ∈ opConstantStr, c ≠ ' ' ∧ c ≠ '=' := by decide
  have hT : containsSub (x ++ ' ' :: '=' :: ' ' :: (op ++ ' ' :: a))
      opTypeStr = false :=
    containsSub_eq_line_false x _ _ hTne hTsp hxT
      (containsSub_sp_append_false op _ _ hTne (fun c hc => (hTsp c hc).1)
        hopT haT)
  have hC : containsSub (x ++ ' ' :: '=' :: ' ' :: (op ++ ' ' :: a))
      opConstantStr = false :=
    containsSub_eq_line_false x _ _ hCne hCsp hxC
      (containsSub_sp_append_false op _ _ hCne (fun c hc => (hCsp c hc).1)
        hopC haC)
  rw [if_neg (by simp [hT, hC])]

theorem fuseLines_refs (defs : List (List Char × List Char))
    (a b : List Char) (refs : List (List Char × List Char))
    (hb0 : b.head? = some '%')
    (hb : ∀ c ∈ b, isCWS c = false ∧ c ≠ '=')
    (haT : containsSub a opTypeStr = false)
    (haC : containsSub a opConstantStr = false)
    (hok : ∀ r ∈ refs, C6RefOk b r) :
    fuseLines { typesAndConstDefs := defs, nameReps := [(b, a)] }
        (refs.map (fun r => r.1 ++ ' ' :: '=' :: ' ' :: (r.2 ++ ' ' :: b)))
      = (refs.map (fun r => r.1 ++ ' ' :: '=' :: ' ' :: (r.2 ++ ' ' :: a)),
         { typesAndConstDefs := defs, nameReps := [(b, a)] }) := by
  induction refs with
  | nil => rfl
  | cons r rs ih =>
    rw [List.map_cons, List.map_cons, fuseLines]
    have h1 := fuseLine_ref defs a b r.1 r.2 hb0 hb haT haC (hok r (by simp))
    rw [h1]
    dsimp only
    rw [ih (fun s hs => hok s (by simp [hs]))]

/-- C6 (amended): for a module whose type-and-constant block declares
    a = rhs and then b = rhs with byte-identical right-hand sides and
    distinct identifiers, followed by assignment-form reference lines
    x = op ... that mention b as their final operand, FuseTypesAndConstants
    keeps exactly the first declaration, blanks the second (so that
    removeNonCode drops it), rewrites every such later reference of b to a,
    and leaves zero identifier tokens equal to b in the module. The claim's
    unconditional version, for arbitrary reference lines, is refuted by the
    counterexample below: references on lines without '=' are never
    rewritten. -/
theorem c6_type_fusion_references
    (a b rhs : List Char) (refs : List (List Char × List Char))
    (ha0 : a.head? = some '%') (hb0 : b.head? = some '%')
    (ha : ∀ c ∈ a, isCWS c = false ∧ c ≠ '=')
    (hb : ∀ c ∈ b, isCWS c = false ∧ c ≠ '=')
    (haT : containsSub a opTypeStr = false)
    (haC : containsSub a opConstantStr = false)
    (hab : containsSub a b = false)
    (hrhs1 : trimWS rhs = rhs)
    (hrhs2 : ∀ c ∈ rhs, c ≠ '=')
    (hrhs3 : containsSub rhs opTypeStr = true ∨
      containsSub rhs opConstantStr = true)
    (hrb : containsSub rhs b = false)
    (hrefs : refs ≠ [])
    (hok : ∀ r ∈ refs, C6RefOk b r) :
    FuseTypesAndConstants
        [{ isHeader := false,
           lines := [a ++ ' ' :: '=' :: ' ' :: rhs,
                     b ++ ' ' :: '=' :: ' ' :: rhs] },
         { isHeader := false,
           lines := refs.map (fun r =>
             r.1 ++ ' ' :: '=' :: ' ' :: (r.2 ++ ' ' :: b)) }] =
      [{ isHeader := false, lines := [a ++ ' ' :: '=' :: ' ' :: rhs] },
       { isHeader := false,
         lines := refs.map (fun r =>
           r.1 ++ ' ' :: '=' :: ' ' :: (r.2 ++ ' ' :: a)) }] ∧
    moduleIdCount
      (FuseTypesAndConstants
        [{ isHeader := false,
           lines := [a ++ ' ' :: '=' :: ' ' :: rhs,
                     b ++ ' ' :: '=' :: ' ' :: rhs] },
         { isHeader := false,
           lines := refs.map (fun r =>
             r.1 ++ ' ' :: '=' :: ' ' :: (r.2 ++ ' ' :: b)) }]) b = 0 := by
  have hane : a ≠ ([] : List Char) := by
    intro h
    rw [h] at ha0
    exact absurd ha0 (by simp)
  have hbne : b ≠ ([] : List Char) := by
    intro h
    rw [h] at hb0
    exact absurd hb0 (by simp)
  have hbsp : ∀ c ∈ b, c ≠ ' ' := by
    intro c hc hceq
    have := (hb c hc).1
    rw [hceq] at this
    exact absurd this (by decide)
  have hrne : rhs ≠ ([] : List Char) := by
    intro h
    rcases hrhs3 with hc | hc <;> rw [h] at hc
    · rw [containsSub_nil _ (by decide)] at hc
      exact absurd hc (by simp)
    · rw [containsSub_nil _ (by decide)] at hc
      exact absurd hc (by simp)
  have hd1 := fuseLine_decl_first a rhs ha0 ha hrhs1 hrhs2 hrhs3
  have hd2 := fuseLine_decl_dup a b rhs hb0 hb hrhs1 hrhs2 hrhs3
  have hL : fuseLines { typesAndConstDefs := [], nameReps := [] }
      [a ++ ' ' :: '=' :: ' ' :: rhs, b ++ ' ' :: '=' :: ' ' :: rhs] =
      ([a ++ ' ' :: '=' :: ' ' :: rhs, markAsEmptyStr],
       { typesAndConstDefs := [(rhs, a)], nameReps := [(b, a)] }) := by
    rw [fuseLines, hd1]
    try dsimp only
    rw [fuseLines, hd2]
    try dsimp only
    rw [fuseLines]
    try dsimp only
    try rfl
  have hRef := fuseLines_refs [(rhs, a)] a b refs hb0 hb haT haC hok
  have hB : (fuseBlocks { typesAndConstDefs := [], nameReps := [] }
      [{ isHeader := false,
         lines := [a ++ ' ' :: '=' :: ' ' :: rhs,
                   b ++ ' ' :: '=' :: ' ' :: rhs] },
       { isHeader := false,
         lines := refs.map (fun r =>
           r.1 ++ ' ' :: '=' :: ' ' :: (r.2 ++ ' ' :: b)) }]).1 =
      [{ isHeader := false,
         lines := [a ++ ' ' :: '=' :: ' ' :: rhs, markAsEmptyStr] },
       { isHeader := false,
         lines := refs.map (fun r =>
           r.1 ++ ' ' :: '=' :: ' ' :: (r.2 ++ ' ' :: a)) }] := by
    rw [fuseBlocks]
    try dsimp only
    rw [hL]
    try dsimp only
    rw [fuseBlocks]
    try dsimp only
    rw [hRef]
    try dsimp only
    rw [fuseBlocks]
    try dsimp only
    try rfl
  have hlastA : ∀ d, (a ++ ' ' :: '=' :: ' ' :: rhs).getLast? = some d →
      isCWS d = false := by
    intro d hd
    rw [show a ++ ' ' :: '=' :: ' ' :: rhs = (a ++ [' ', '=', ' ']) ++ rhs by simp,
      List.getLast?_append_of_ne_nil _ hrne] at hd
    obtain ⟨d', hd', hw'⟩ := trimWS_last rhs (by rw [hrhs1]; exact hrne)
    rw [hrhs1, hd] at hd'
    obtain rfl : d = d' := by injection hd'
    exact hw'
  have hhasA : hasCode (a ++ ' ' :: '=' :: ' ' :: rhs) = true :=
    hasCode_line a _ ha0 hlastA
  have hhasE : hasCode markAsEmptyStr = false := by decide
  have hhasRef : ∀ r ∈ refs,
      hasCode (r.1 ++ ' ' :: '=' :: ' ' :: (r.2 ++ ' ' :: a)) = true := by
    intro r hr
    apply hasCode_line r.1 _ (hok r hr).1
    intro d hd
    rw [show r.1 ++ ' ' :: '=' :: ' ' :: (r.2 ++ ' ' :: a) =
      (r.1 ++ ' ' :: '=' :: ' ' :: (r.2 ++ [' '])) ++ a by simp,
      List.getLast?_append_of_ne_nil _ hane] at hd
    exact (ha d (mem_of_getLast?_eq hd)).1
  have hrnc : removeNonCode
      [{ isHeader := false,
         lines := [a ++ ' ' :: '=' :: ' ' :: rhs, markAsEmptyStr] },
       { isHeader := false,
         lines := refs.map (fun r =>
           r.1 ++ ' ' :: '=' :: ' ' :: (r.2 ++ ' ' :: a)) }] =
      [{ isHeader := false, lines := [a ++ ' ' :: '=' :: ' ' :: rhs] },
       { isHeader := false,
         lines := refs.map (fun r =>
           r.1 ++ ' ' :: '=' :: ' ' :: (r.2 ++ ' ' :: a)) }] := by
    rw [removeNonCode]
    simp only [List.map_cons, List.map_nil, Bool.false_eq_true, if_false]
    rw [show List.filter hasCode [a ++ ' ' :: '=' :: ' ' :: rhs, markAsEmptyStr]
        = [a ++ ' ' :: '=' :: ' ' :: rhs] from by
      rw [List.filter_cons, if_pos hhasA, List.filter_cons,
        if_neg (by simp [hhasE]), List.filter_nil]]
    rw [show List.filter hasCode
          (List.map (fun r => r.1 ++ ' ' :: '=' :: ' ' :: (r.2 ++ ' ' :: a)) refs)
        = List.map (fun r => r.1 ++ ' ' :: '=' :: ' ' :: (r.2 ++ ' ' :: a)) refs
        from List.filter_eq_self.mpr (fun l hl => by
      obtain ⟨r, hr, rfl⟩ := List.mem_map.mp hl
      exact hhasRef r hr)]
    rw [List.filter_cons, if_pos (by simp [hhasA]), List.filter_cons,
      if_pos (by
        obtain ⟨r0, rs, hre⟩ := List.exists_cons_of_ne_nil hrefs
        rw [hre, List.map_cons, List.any_cons]
        simp [hhasRef r0 (by rw [hre]; exact List.mem_cons_self r0 rs)]),
      List.filter_nil]
    try rfl
  have hres : FuseTypesAndConstants
      [{ isHeader := false,
         lines := [a ++ ' ' :: '=' :: ' ' :: rhs,
                   b ++ ' ' :: '=' :: ' ' :: rhs] },
       { isHeader := false,
         lines := refs.map (fun r =>
           r.1 ++ ' ' :: '=' :: ' ' :: (r.2 ++ ' ' :: b)) }] =
      [{ isHeader := false, lines := [a ++ ' ' :: '=' :: ' ' :: rhs] },
       { isHeader := false,
         lines := refs.map (fun r =>
           r.1 ++ ' ' :: '=' :: ' ' :: (r.2 ++ ' ' :: a)) }] := by
    rw [FuseTypesAndConstants, hB]
    exact hrnc
  refine ⟨hres, ?_⟩
  rw [hres]
  have hcA : (getIdentifiers (a ++ ' ' :: '=' :: ' ' :: rhs)).count b = 0 :=
    getIdentifiers_count_zero _ _ (containsSub_eq_line_false a rhs b hbne
      (fun c hc => ⟨hbsp c hc, (hb c hc).2⟩) hab hrb)
  have hcR : ∀ r ∈ refs,
      (getIdentifiers (r.1 ++ ' ' :: '=' :: ' ' :: (r.2 ++ ' ' :: a))).count b
        = 0 := by
    intro r hr
    obtain ⟨hxh, hx, hxb, hxT, hxC, hop0, hop, hopT, hopC⟩ := hok r hr
    exact getIdentifiers_count_zero _ _ (containsSub_eq_line_false r.1 _ b hbne
      (fun c hc => ⟨hbsp c hc, (hb c hc).2⟩) hxb
      (containsSub_sp_append_false r.2 a b hbne hbsp
        (containsSub_false_of_no_marker r.2 b hb0
          (fun hm => (hop '%' hm).2.2 rfl))
        hab))
  rw [moduleIdCount]
  simp only [List.map_cons, List.map_nil, List.sum_cons, List.sum_nil,
    getIdCount]
  rw [hcA]
  have hsum : ((refs.map (fun r =>
      r.1 ++ ' ' :: '=' :: ' ' :: (r.2 ++ ' ' :: a))).map
      (fun l => (getIdentifiers l).count b)).sum = 0 := by
    apply List.sum_eq_zero
    intro x hx
    obtain ⟨l, hl, rfl⟩ := List.mem_map.mp hx
    obtain ⟨r, hr, rfl⟩ := List.mem_map.mp hl
    exact hcR r hr
  rw [hsum]
  rfl

/-- C6 counterexample: in a module where the function body stores through
    the duplicated constant, the line OpStore %p %b contains no '=', so the
    fusion loop skips it entirely: after FuseTypesAndConstants one
    identifier token %b remains in the module even though its declaration
    was blanked and removed, refuting the claim that zero references to the
    discarded identifier remain. -/
theorem c6_type_fusion_references_counterexample :
    FuseTypesAndConstants c6Module =
      [{ isHeader := false, lines := ["%a = OpTypeInt 32 0".toList] },
       { isHeader := false,
         lines := ["%f = OpFunction %v None %fn".toList,
                   "OpStore %p %b".toList,
                   "OpReturn".toList,
                   "OpFunctionEnd".toList] }] ∧
    moduleIdCount (FuseTypesAndConstants c6Module) "%b".toList = 1 :=
  ⟨rfl, rfl⟩

/-- C6 witness: a concrete two-declaration module with one assignment-form
    reference, run through the amended theorem. -/
theorem c6_type_fusion_references_witness :
    FuseTypesAndConstants
        [{ isHeader := false,
           lines := ["%a".toList ++ ' ' :: '=' :: ' ' :: "OpTypeInt 32 0".toList,
                     "%b".toList ++ ' ' :: '=' :: ' ' :: "OpTypeInt 32 0".toList] },
         { isHeader := false,
           lines := [("%x".toList, "OpFoo".toList)].map (fun r =>
             r.1 ++ ' ' :: '=' :: ' ' :: (r.2 ++ ' ' :: "%b".toList)) }] =
      [{ isHeader := false,
         lines := ["%a".toList ++ ' ' :: '=' :: ' ' :: "OpTypeInt 32 0".toList] },
       { isHeader := false,
         lines := [("%x".toList, "OpFoo".toList)].map (fun r =>
           r.1 ++ ' ' :: '=' :: ' ' :: (r.2 ++ ' ' :: "%a".toList)) }] ∧
    moduleIdCount
      (FuseTypesAndConstants
        [{ isHeader := false,
           lines := ["%a".toList ++ ' ' :: '=' :: ' ' :: "OpTypeInt 32 0".toList,
                     "%b".toList ++ ' ' :: '=' :: ' ' :: "OpTypeInt 32 0".toList] },
         { isHeader := false,
           lines := [("%x".toList, "OpFoo".toList)].map (fun r =>
             r.1 ++ ' ' :: '=' :: ' ' :: (r.2 ++ ' ' :: "%b".toList)) }])
      "%b".toList = 0 :=
  c6_type_fusion_references "%a".toList "%b".toList "OpTypeInt 32 0".toList
    [("%x".toList, "OpFoo".toList)] (by decide) (by decide) (by decide)
    (by decide) (by decide) (by decide) (by decide) (by decide) (by decide)
    (by decide) (by decide) (by decide) (by decide)
